import Mathlib

/-!
Verification development for the k-mer modeling core of gatb-core
(src/gatb-core/src/gatb/kmer/impl/Model.hpp).

The LargeInt fixed-width big integer (span bits, `W = ceil(span/32)` limbs of
64 bits) is embedded as an arbitrary-precision `Nat`; every place where the
fixed width of the C++ type is semantically relevant (shifts that drop high
bits in the SuperKmer codec, the `int32_t` truncation of the k-mer count in
`iterate`/`build`) carries an explicit `% 2 ^ w` or a two-complement
reinterpretation.  The functions `revcompNat` and `compNT` correspond to
`revcomp`/`comp_NT` of LargeInt.hpp / Model.cpp, which are not under src/ and
are therefore modelled from the specification.
-/

namespace GatbCore

/-- Modelled from the spec: the global table `comp_NT` (complement of a 2-bit
nucleotide code, A=0 C=1 T=2 G=3); the complement is `code ^ 2`. -/
def compNT (c : Nat) : Nat := c ^^^ 2

/-- Modelled from the spec: `revcomp(x, k)` of LargeInt (not under src/):
reverse the order of the k 2-bit digits of x and complement each digit. -/
def revcompNat : Nat → Nat → Nat
  | _, 0 => 0
  | x, k + 1 => ((x % 4) ^^^ 2) * 4 ^ k + revcompNat (x / 4) k

/-- Encoding tag of a Data buffer (tools::misc::Data::Encoding_e). -/
inductive Encoding where
  | ASCII
  | INTEGER
  | BINARY
deriving DecidableEq

/-- ConvertASCII / ConvertInteger / ConvertBinary from ModelAbstract
(Model.hpp:523-525).  Returns the pair (2-bit code, invalid flag): for ASCII
`((buffer[idx] >> 1) & 3, (buffer[idx] >> 3) & 1)`, for INTEGER the byte
itself with invalid 0, for BINARY the packed 2-bit extraction with invalid 0.
Buffer bytes beyond the end read as 0 (the C++ reads unchecked memory; the
claims only use in-range indices). -/
def convertGet (e : Encoding) (buffer : List Nat) (idx : Nat) : Nat × Nat :=
  match e with
  | .ASCII => ((buffer.getD idx 0 >>> 1) &&& 3, (buffer.getD idx 0 >>> 3) &&& 1)
  | .INTEGER => (buffer.getD idx 0, 0)
  | .BINARY => ((buffer.getD (idx >>> 2) 0 >>> ((3 - (idx &&& 3)) * 2)) &&& 3, 0)

/-- Kmer value for ModelDirect (Model.hpp:122-155). -/
structure KmerDirect where
  value : Nat
  isValid : Bool
deriving DecidableEq

/-- ModelAbstract::polynom (Model.hpp:528-549): Horner evaluation of the
first K codes, returning the kmer value together with the index of the last
invalid character (-1 when every character decodes as valid). -/
def polynom (e : Encoding) (seq : List Nat) (K : Nat) : Nat × Int :=
  (List.range K).foldl
    (fun acc i =>
      let c := convertGet e seq i
      ((acc.1 <<< 2) + c.1, if c.2 ≠ 0 then (i : Int) else acc.2))
    (0, -1)

/-- ModelDirect::next (Model.hpp:707-712):
`value = ((value << 2) + c) & kmerMask; isValid = isValid`. -/
def nextDirect (K : Nat) (c : Nat) (v : KmerDirect) (isValid : Bool) : KmerDirect :=
  ⟨((v.value <<< 2) + c) &&& (2 ^ (2 * K) - 1), isValid⟩

/-- Two-complement reinterpretation of the low 32 bits of a natural number,
as performed by the C++ conversion of a `size_t` expression to `int32_t`. -/
def i32OfNat (n : Nat) : Int :=
  if n % 2 ^ 32 < 2 ^ 31 then ((n % 2 ^ 32 : Nat) : Int)
  else ((n % 2 ^ 32 : Nat) : Int) - 2 ^ 32

/-- Wrapping size_t subtraction `a - b` (modulo 2^64). -/
def sub64 (a b : Nat) : Nat := (a % 2 ^ 64 + (2 ^ 64 - b % 2 ^ 64)) % 2 ^ 64

/-- The guard value `int32_t nbKmers = length - _kmerSize + 1` of
ModelAbstract::iterate (Model.hpp:617) and ModelAbstract::build
(Model.hpp:399): computed in size_t arithmetic, then truncated to int32_t. -/
def nbKmersI32 (length K : Nat) : Int := i32OfNat ((sub64 length K + 1) % 2 ^ 64)

/-- The loop of ModelAbstract::iterate (Model.hpp:636-649) specialised to
ModelDirect: starting at buffer index `idx` with `cnt` characters left,
current kmer `st`, current bad-character counter `bad` and output index
`outIdx`, produce the list of notified (kmer, output index) pairs. -/
def iterDirectGo (e : Encoding) (seq : List Nat) (K : Nat) :
    Nat → Nat → KmerDirect → Int → Nat → List (KmerDirect × Nat)
  | _, 0, _, _, _ => []
  | idx, cnt + 1, st, bad, outIdx =>
    let c := convertGet e seq idx
    let bad' : Int := if c.2 ≠ 0 then (K : Int) - 1 else bad - 1
    let st' := nextDirect K c.1 st (bad' < 0)
    (st', outIdx) :: iterDirectGo e seq K (idx + 1) cnt st' bad' (outIdx + 1)

/-- ModelAbstract::iterate (Model.hpp:612-652) for ModelDirect: guard on the
int32_t kmer count, then notify the first kmer at output index 0 and slide
over the remaining characters. -/
def iterateDirect (e : Encoding) (seq : List Nat) (K : Nat) :
    Bool × List (KmerDirect × Nat) :=
  if nbKmersI32 seq.length K ≤ 0 then (false, [])
  else
    let p := polynom e seq K
    let k0 : KmerDirect := ⟨p.1, decide (p.2 < 0)⟩
    (true, (k0, 0) :: iterDirectGo e seq K K (seq.length - K) k0 p.2 1)

/-- ModelAbstract::build (Model.hpp:395-409) for ModelDirect: the same
int32_t guard, then the vector filled by BuildFunctor, i.e. slot idx receives
the kmer notified with output index idx; since the notified output indices
are exactly 0,1,2,... (proved below), the vector is the first projection of
the notification list. -/
def buildDirect (e : Encoding) (seq : List Nat) (K : Nat) :
    Option (List KmerDirect) :=
  if nbKmersI32 seq.length K ≤ 0 then none
  else some ((iterateDirect e seq K).2.map Prod.fst)

/-- Functor_codeSeedRight (Model.hpp:582-594) for ModelDirect: decode the
single nucleotide byte, copy the given kmer and apply `next` with validity
`c.second == 0`. -/
def codeSeedRightDirect (e : Encoding) (K : Nat) (kmer : KmerDirect)
    (nucl : Nat) : KmerDirect :=
  let c := convertGet e [nucl] 0
  nextDirect K c.1 kmer (c.2 == 0)

/-- ModelAbstract::iterateOutgoingNeighbors (Model.hpp:432-445): for each
nt in 0..3 selected by the mask, emit
`min(next1, revcomp(next1, K))` with `next1 = (source * 4 + nt) & kmerMask`. -/
def outgoingNeighbors (K : Nat) (source : Nat) (mask : Nat) : List Nat :=
  (List.range 4).filterMap fun nt =>
    if mask &&& (1 <<< nt) ≠ 0 then
      some (min ((source * 4 + nt) &&& (2 ^ (2 * K) - 1))
                (revcompNat ((source * 4 + nt) &&& (2 ^ (2 * K) - 1)) K))
    else none

/-- ModelAbstract::iterateIncomingNeighbors (Model.hpp:452-471): with
`rev = revcomp(source, K)`, for each nt in 0..3 selected by the mask, emit
`min(next1, revcomp(next1, K))` with `next1 = (rev * 4 + (nt ^ 2)) & kmerMask`. -/
def incomingNeighbors (K : Nat) (source : Nat) (mask : Nat) : List Nat :=
  (List.range 4).filterMap fun nt =>
    if mask &&& (1 <<< nt) ≠ 0 then
      some (min ((revcompNat source K * 4 + (nt ^^^ 2)) &&& (2 ^ (2 * K) - 1))
                (revcompNat ((revcompNat source K * 4 + (nt ^^^ 2)) &&& (2 ^ (2 * K) - 1)) K))
    else none

/-- ModelAbstract::iterateNeighbors (Model.hpp:419-425): outgoing neighbors
with the low nibble of the mask, then incoming neighbors with the high
nibble. -/
def iterateNeighborsList (K : Nat) (source : Nat) (mask8 : Nat) : List Nat :=
  outgoingNeighbors K source ((mask8 >>> 0) &&& 15)
    ++ incomingNeighbors K source ((mask8 >>> 4) &&& 15)

/-- Kmer value for ModelCanonical (Model.hpp:158-238): `table[2]`, the
choice of strand, and the valid flag. -/
structure KmerCanonical where
  table0 : Nat
  table1 : Nat
  choice : Nat
  isValid : Bool
deriving DecidableEq

/-- KmerCanonical::updateChoice (Model.hpp:211):
`choice = (table[0] < table[1]) ? 0 : 1`. -/
def updateChoice (k : KmerCanonical) : KmerCanonical :=
  { k with choice := if k.table0 < k.table1 then 0 else 1 }

/-- KmerCanonical::value (Model.hpp:164): `table[choice]`. -/
def KmerCanonical.value (k : KmerCanonical) : Nat :=
  if k.choice = 0 then k.table0 else k.table1

/-- A default-constructed KmerCanonical after a single-argument `set(val)`
(Model.hpp:174-178): both table entries hold `val`, then updateChoice; the
valid flag of the temporary is never read and is modelled as `true`. -/
def canonical1 (v : Nat) : KmerCanonical :=
  updateChoice { table0 := v, table1 := v, choice := 0, isValid := true }

/-- A KmerCanonical after a two-argument `set(forward, revcomp)`
(Model.hpp:181-186). -/
def canonical2 (f r : Nat) : KmerCanonical :=
  updateChoice { table0 := f, table1 := r, choice := 0, isValid := true }

/-- ModelCanonical::first (Model.hpp:736-745): polynom into table[0],
valid flag from the bad index, table[1] = revcomp(table[0], K),
updateChoice; also returns the bad index. -/
def canonicalFirst (e : Encoding) (seq : List Nat) (K : Nat) :
    KmerCanonical × Int :=
  let p := polynom e seq K
  (updateChoice
    { table0 := p.1, table1 := revcompNat p.1 K, choice := 0,
      isValid := decide (p.2 < 0) }, p.2)

/-- The precomputed table `_revcompTable[c] = comp_NT[c] << 2(K-1)`
(Model.hpp:319). -/
def revcompTable (K c : Nat) : Nat := compNT c <<< (2 * (K - 1))

/-- ModelCanonical::next (Model.hpp:755-763):
`table[0] = ((table[0] << 2) + c) & kmerMask`,
`table[1] = ((table[1] >> 2) + revcompTable[c]) & kmerMask`, set the valid
flag, updateChoice. -/
def canonicalNext (K : Nat) (c : Nat) (k : KmerCanonical) (isValid : Bool) :
    KmerCanonical :=
  updateChoice
    { table0 := ((k.table0 <<< 2) + c) &&& (2 ^ (2 * K) - 1),
      table1 := ((k.table1 >>> 2) + revcompTable K c) &&& (2 ^ (2 * K) - 1),
      choice := k.choice, isValid := isValid }

/-- A canonical kmer produced by `first` followed by an arbitrary sequence of
`next` steps, each step being a (code, validity) pair. -/
def canonicalChain (e : Encoding) (seq : List Nat) (K : Nat)
    (steps : List (Nat × Bool)) : KmerCanonical :=
  steps.foldl (fun k s => canonicalNext K s.1 k s.2) (canonicalFirst e seq K).1

/-- The even-bit mask `0b0101...01` with n one bits, i.e. the value
`0x5555...5 & ((1 << 2n) - 1)`. -/
def evenMask : Nat → Nat
  | 0 => 0
  | n + 1 => 4 * evenMask n + 1

/-- ModelMinimizer::is_allowed (Model.hpp:909-936).  The C++ computes, in
64-bit arithmetic on a 32-bit mmer,
`a1 = ~(mmer | (mmer >> 2)); a1 = ((a1 >> 1) & a1) & masklow & 0x5555555555555555`
with `masklow = (1 << 2(len-2)) - 1`, and allows the mmer iff `a1 == 0`.
Here the complement is taken on `2*len+4` bits and the 0x5555 pattern via
`evenMask (len-2)`; for the C++-defined range (2 ≤ len ≤ 17, mmer < 4^len)
only bits below `2(len-2)` are inspected so the two computations agree. -/
def is_allowed (mmer len : Nat) : Bool :=
  let mask_ma1 := evenMask (len - 2)
  let a1 := (2 ^ (2 * len + 4) - 1) ^^^ (mmer ||| (mmer >>> 2))
  ((a1 >>> 1) &&& a1) &&& mask_ma1 == 0

/-- The minimizer lookup table built in the ModelMinimizer constructor
(Model.hpp:819-832): `mmer = i`; `rev = revcomp(mmer, m)`;
`if rev < mmer then mmer = rev`; `if !is_allowed(mmer, m) then mmer = mask`. -/
def mmerLut (m : Nat) (i : Nat) : Nat :=
  let mmer := i
  let rev := revcompNat mmer m
  let mmer1 := if rev < mmer then rev else mmer
  if is_allowed mmer1 m then mmer1 else 2 ^ (2 * m) - 1

/-- Kmer value for ModelMinimizer over ModelCanonical (Model.hpp:241-265):
the canonical kmer plus the minimizer, its position and the changed flag. -/
structure KmerMin extends KmerCanonical where
  minimizer : KmerCanonical
  position : Int
  changed : Bool
deriving DecidableEq

/-- KmerCanonical::extract (Model.hpp:219-229): a fresh kmer set from
`mmer_lut[(table[0] & mask).getVal()]`. -/
def extractCanonical (m : Nat) (k : KmerCanonical) : KmerCanonical :=
  canonical1 (mmerLut m (k.table0 &&& (2 ^ (2 * m) - 1)))

/-- KmerCanonical::extractShift (Model.hpp:232-237): extract, then
`table[0] >>= 2; table[1] <<= 2; updateChoice()`.  Returns the extracted
mmer together with the shifted kmer. -/
def extractShiftCanonical (m : Nat) (k : KmerCanonical) :
    KmerCanonical × KmerCanonical :=
  (extractCanonical m k,
   updateChoice { k with table0 := k.table0 >>> 2, table1 := k.table1 <<< 2 })

/-- The loop of ModelMinimizer::computeNewMinimizer (Model.hpp:955-962):
`for idx = nbMinimizers-1 downto 0`, extract the next mmer from the local
copy and adopt it when strictly smaller than the current minimizer.  The
first argument is the number of iterations left; the recorded position of an
iteration with `i+1` iterations left is `i`. -/
def cnmGo (m : Nat) : Nat → KmerCanonical → KmerMin → KmerMin
  | 0, _, km => km
  | i + 1, loop, km =>
    let pr := extractShiftCanonical m loop
    let km' :=
      if pr.1.value < km.minimizer.value then
        { km with minimizer := pr.1, position := (i : Int) }
      else km
    cnmGo m i pr.2 km'

/-- ModelMinimizer::computeNewMinimizer (Model.hpp:939-963): reset the
minimizer to the sentinel (`_minimizerDefault`, value `mmerMask`), position
to -1, changed to true, then scan all nbMinimizers mmers of a local copy. -/
def computeNewMinimizer (K m : Nat) (km : KmerMin) : KmerMin :=
  cnmGo m (K - m + 1) km.toKmerCanonical
    { km with
        minimizer := canonical1 (2 ^ (2 * m) - 1),
        position := -1,
        changed := true }

/-- ModelMinimizer::first (Model.hpp:843-852) over ModelCanonical: the base
first kmer, then computeNewMinimizer; also returns the bad index. -/
def minimizerFirst (e : Encoding) (seq : List Nat) (K m : Nat) :
    KmerMin × Int :=
  let p := canonicalFirst e seq K
  (computeNewMinimizer K m
    { toKmerCanonical := p.1, minimizer := canonical1 0, position := 0,
      changed := false }, p.2)

/-- ModelMinimizer::next (Model.hpp:854-887) over ModelCanonical: slide the
base kmer, set the valid flag, extract the newly entered mmer, age the
incumbent, adopt the new mmer when strictly smaller, otherwise recompute
from scratch when the incumbent has left the window. -/
def minimizerNext (K m : Nat) (c : Nat) (km : KmerMin) (isValid : Bool) :
    KmerMin :=
  let base := canonicalNext K c km.toKmerCanonical isValid
  let km1 : KmerMin := { km with toKmerCanonical := { base with isValid := isValid } }
  let mmer := extractCanonical m km1.toKmerCanonical
  let km2 := { km1 with position := km1.position - 1, changed := false }
  if mmer.value < km2.minimizer.value then
    { km2 with
        minimizer := mmer,
        position := ((K - m + 1) - 1 : Nat),
        changed := true }
  else if km2.position < 0 then computeNewMinimizer K m km2
  else km2

/-- A minimizer-augmented kmer produced by `first` followed by an arbitrary
sequence of `next` steps. -/
def minimizerChain (e : Encoding) (seq : List Nat) (K m : Nat)
    (steps : List (Nat × Bool)) : KmerMin :=
  steps.foldl (fun k s => minimizerNext K m s.1 k s.2)
    (minimizerFirst e seq K m).1

/-- The lut value of the mmer of `f` at shift index i (bits 2i..2i+2m-1):
`mmerLut[(forward >> 2i) & mmerMask]`. -/
def lutShiftVal (m : Nat) (f : Nat) (i : Nat) : Nat :=
  mmerLut m ((f >>> (2 * i)) &&& (2 ^ (2 * m) - 1))

/-- Minimum of the sentinel `mmerMask` and the lut values of the mmers of f
at shift indices 0..j-1. -/
def winMinAux (m : Nat) (f : Nat) : Nat → Nat
  | 0 => 2 ^ (2 * m) - 1
  | j + 1 => min (winMinAux m f j) (lutShiftVal m f j)

/-- SuperKmer::save (Model.hpp:996-1018) over a run of canonical kmers, for
a BigKmer of `B` bits (`B = compactedK.getSize()`): pack the low nucleotide
of every kmer after the first into `compactedK` (left shifts drop bits above
B), or the length into the top 8 bits, and emit `(compactedK, forward of the
first kmer)`. -/
def superKmerSave (B : Nat) (ks : List KmerCanonical) : Nat × Nat :=
  let nbK := ks.length
  let compactedK :=
    (ks.drop 1).foldl (fun acc k => ((acc <<< 2) % 2 ^ B) ||| (k.table0 &&& 3)) 0
  (compactedK ||| ((nbK <<< (B - 8)) % 2 ^ B),
   (ks.headD (canonical1 0)).table0)

/-- The loop of SuperKmer::load (Model.hpp:1044-1057): emit
`(rev_temp, temp)` (the arguments of `kmers[ii].set`), stop when `rem < 2`,
otherwise extract the next nucleotide from the packed word and slide both
strands.  The first argument is the number of loop iterations left. -/
def superKmerLoadGo (B K : Nat) (superk : Nat) :
    Nat → Nat → Nat → Nat → List (Nat × Nat)
  | 0, _, _, _ => []
  | n + 1, rem, temp, revTemp =>
    (revTemp, temp) ::
      (if rem < 2 then []
       else
         let newnt := (superk >>> (2 * (rem - 2))) &&& 3
         let temp1 := (((temp <<< 2) % 2 ^ B) ||| newnt) &&& (2 ^ (2 * K) - 1)
         let revTemp1 := ((revTemp >>> 2) ||| ((compNT newnt <<< (2 * (K - 1))) % 2 ^ B))
             &&& (2 ^ (2 * K) - 1)
         superKmerLoadGo B K superk n (rem - 1) temp1 revTemp1)

/-- SuperKmer::load (Model.hpp:1020-1058): read `(superk, seedk)`, decode
the count from the top 8 bits, start from `temp = seedk`,
`rev_temp = revcomp(seedk, K)` and run the loop.  Each emitted pair is the
`(rev_temp, temp)` argument pair of `kmers[ii].set`. -/
def superKmerLoad (B K : Nat) (sk : Nat × Nat) : List (Nat × Nat) :=
  let nbK := (sk.1 >>> (B - 8)) &&& 255
  superKmerLoadGo B K sk.1 nbK nbK sk.2 (revcompNat sk.2 K)

/-- A run of consecutive canonical kmers of a shared sequence: the seed kmer
followed by the kmers obtained by sliding one nucleotide at a time. -/
def canonicalRun (K : Nat) (k0 : KmerCanonical) : List Nat → List KmerCanonical
  | [] => [k0]
  | c :: cs => k0 :: canonicalRun K (canonicalNext K c k0 true) cs

/-- Index (as Int) of the last invalid character strictly below position n,
or -1 when none exists. -/
def lastBad (e : Encoding) (seq : List Nat) : Nat → Int
  | 0 => -1
  | n + 1 => if (convertGet e seq n).2 ≠ 0 then (n : Int) else lastBad e seq n

/-- The base-4 polynomial value of the K codes starting at position `start`
(the value of the kmer whose window is [start, start+K)). -/
def windowVal (e : Encoding) (seq : List Nat) (start K : Nat) : Nat :=
  (List.range K).foldl (fun acc i => acc * 4 + (convertGet e seq (start + i)).1) 0



/-! ## Arithmetic and bit-level helper lemmas -/

theorem lor_eq_add_of_lt {a b s : Nat} (hb : b < 2 ^ s) :
    (2 ^ s * a) ||| b = 2 ^ s * a + b := by
  apply Nat.eq_of_testBit_eq
  intro j
  rw [Nat.testBit_lor, Nat.testBit_mul_pow_two_add a hb j, Nat.testBit_mul_pow_two]
  by_cases h : j < s
  · simp [h, Nat.not_le.mpr h, Nat.testBit_eq_false_of_lt]
  · simp only [if_neg h, Nat.not_lt.mp h, decide_True, Bool.true_and]
    have hb2 : b.testBit j = false :=
      Nat.testBit_eq_false_of_lt
        (lt_of_lt_of_le hb (Nat.pow_le_pow_right (by norm_num) (Nat.not_lt.mp h)))
    simp [hb2, Nat.le_of_not_lt h]

theorem mul4_lor_eq_add (a c : Nat) (hc : c < 4) : a * 4 ||| c = a * 4 + c := by
  have h4 : (4 : Nat) = 2 ^ 2 := by norm_num
  rw [mul_comm a 4, h4, lor_eq_add_of_lt (by rw [← h4]; exact hc), mul_comm]

theorem lor_eq_add_of_dvd {a c : Nat} (ha : 4 ∣ a) (hc : c < 4) :
    a ||| c = a + c := by
  obtain ⟨t, ht⟩ := ha
  rw [ht, mul_comm 4 t, mul4_lor_eq_add t c hc, mul_comm]

theorem xor2_lt {a : Nat} (ha : a < 4) : a ^^^ 2 < 4 := by
  have h4 : (4 : Nat) = 2 ^ 2 := by norm_num
  rw [h4] at ha ⊢
  exact Nat.xor_lt_two_pow ha (by norm_num)

theorem xor2_xor2 (a : Nat) : (a ^^^ 2) ^^^ 2 = a := by
  rw [Nat.xor_assoc]
  simp

/-! ## Lemmas about revcompNat -/

theorem revcompNat_lt (k x : Nat) : revcompNat x k < 4 ^ k := by
  induction k generalizing x with
  | zero => simp [revcompNat]
  | succ k ih =>
    show ((x % 4) ^^^ 2) * 4 ^ k + revcompNat (x / 4) k < 4 ^ (k + 1)
    have h1 : (x % 4) ^^^ 2 < 4 := xor2_lt (Nat.mod_lt _ (by norm_num))
    have h2 := ih (x / 4)
    have h3 : ((x % 4) ^^^ 2) * 4 ^ k ≤ 3 * 4 ^ k :=
      Nat.mul_le_mul_right _ (by omega)
    have h4 : (4 : Nat) ^ (k + 1) = 4 * 4 ^ k := by ring
    omega

theorem revcompNat_high (k : Nat) :
    ∀ a b : Nat, a < 4 → b < 4 ^ k →
      revcompNat (a * 4 ^ k + b) (k + 1) = revcompNat b k * 4 + (a ^^^ 2) := by
  induction k with
  | zero =>
    intro a b ha hb
    have hb0 : b = 0 := by omega
    subst hb0
    show ((a * 4 ^ 0 + 0) % 4 ^^^ 2) * 4 ^ 0 + revcompNat ((a * 4 ^ 0 + 0) / 4) 0
        = revcompNat 0 0 * 4 + (a ^^^ 2)
    simp [revcompNat, Nat.mod_eq_of_lt ha, Nat.div_eq_of_lt ha]
  | succ k ih =>
    intro a b ha hb
    have key : a * 4 ^ (k + 1) + b = 4 * (a * 4 ^ k) + b := by ring
    show (((a * 4 ^ (k + 1) + b) % 4) ^^^ 2) * 4 ^ (k + 1)
        + revcompNat ((a * 4 ^ (k + 1) + b) / 4) (k + 1)
        = revcompNat b (k + 1) * 4 + (a ^^^ 2)
    rw [key, Nat.mul_add_mod, Nat.mul_add_div (by norm_num)]
    rw [ih a (b / 4) ha (by
      have h4 : (4 : Nat) ^ (k + 1) = 4 * 4 ^ k := by ring
      rw [h4] at hb
      exact Nat.div_lt_of_lt_mul hb)]
    show ((b % 4) ^^^ 2) * 4 ^ (k + 1) + (revcompNat (b / 4) k * 4 + (a ^^^ 2))
        = (((b % 4) ^^^ 2) * 4 ^ k + revcompNat (b / 4) k) * 4 + (a ^^^ 2)
    ring

theorem revcompNat_involutive (k : Nat) :
    ∀ x : Nat, x < 4 ^ k → revcompNat (revcompNat x k) k = x := by
  induction k with
  | zero =>
    intro x hx
    have : x = 0 := by omega
    simp [this, revcompNat]
  | succ k ih =>
    intro x hx
    show revcompNat (((x % 4) ^^^ 2) * 4 ^ k + revcompNat (x / 4) k) (k + 1) = x
    rw [revcompNat_high k _ _ (xor2_lt (Nat.mod_lt _ (by norm_num))) (revcompNat_lt k _)]
    rw [ih (x / 4) (by
      have h4 : (4 : Nat) ^ (k + 1) = 4 * 4 ^ k := by ring
      rw [h4] at hx
      exact Nat.div_lt_of_lt_mul hx)]
    rw [xor2_xor2]
    omega

theorem revcompNat_div4 (k f : Nat) (hf : f < 4 ^ (k + 1)) :
    revcompNat f (k + 1) / 4 = revcompNat (f % 4 ^ k) k := by
  have hdecomp : f = (f / 4 ^ k) * 4 ^ k + f % 4 ^ k := by
    rw [mul_comm]
    exact (Nat.div_add_mod f (4 ^ k)).symm
  have hhi : f / 4 ^ k < 4 := by
    apply Nat.div_lt_of_lt_mul
    have h4 : (4 : Nat) ^ (k + 1) = 4 ^ k * 4 := by ring
    rw [← h4]
    exact hf
  conv_lhs => rw [hdecomp]
  rw [revcompNat_high k _ _ hhi (Nat.mod_lt _ (Nat.pos_pow_of_pos k (by norm_num)))]
  have hx : (f / 4 ^ k) ^^^ 2 < 4 := xor2_lt hhi
  omega

theorem revcompNat_slide (k f c : Nat) (hf : f < 4 ^ (k + 1)) (hc : c < 4) :
    revcompNat ((f * 4 + c) % 4 ^ (k + 1)) (k + 1)
      = revcompNat f (k + 1) / 4 + (c ^^^ 2) * 4 ^ k := by
  have h4 : (4 : Nat) ^ (k + 1) = 4 * 4 ^ k := by ring
  have hmodlt : (f % 4 ^ k) * 4 + c < 4 ^ (k + 1) := by
    have := Nat.mod_lt f (Nat.pos_pow_of_pos k (show 0 < 4 by norm_num))
    omega
  have hsplit : f * 4 + c = (f / 4 ^ k) * 4 ^ (k + 1) + ((f % 4 ^ k) * 4 + c) := by
    have h6 := Nat.div_add_mod f (4 ^ k)
    have hcomm : 4 ^ k * (f / 4 ^ k) = (f / 4 ^ k) * 4 ^ k := mul_comm _ _
    have h5 : (f / 4 ^ k) * 4 ^ (k + 1) = (f / 4 ^ k) * 4 ^ k * 4 := by ring
    omega
  have hmod : (f * 4 + c) % 4 ^ (k + 1) = (f % 4 ^ k) * 4 + c := by
    rw [hsplit, mul_comm (f / 4 ^ k) (4 ^ (k + 1)), Nat.mul_add_mod,
      Nat.mod_eq_of_lt hmodlt]
  rw [hmod]
  show ((((f % 4 ^ k) * 4 + c) % 4) ^^^ 2) * 4 ^ k
      + revcompNat (((f % 4 ^ k) * 4 + c) / 4) k
      = revcompNat f (k + 1) / 4 + (c ^^^ 2) * 4 ^ k
  have hm : ((f % 4 ^ k) * 4 + c) % 4 = c := by omega
  have hd : ((f % 4 ^ k) * 4 + c) / 4 = f % 4 ^ k := by omega
  rw [hm, hd, revcompNat_div4 k f hf]
  ring



/-! ## Basic facts about the canonical kmer operations -/

theorem two_pow_two_mul (K : Nat) : (2 : Nat) ^ (2 * K) = 4 ^ K := by
  rw [pow_mul]
  norm_num

theorem updateChoice_choice_iff (k : KmerCanonical) :
    (updateChoice k).choice = 0 ↔ k.table0 < k.table1 := by
  unfold updateChoice
  by_cases h : k.table0 < k.table1 <;> simp [h]

theorem updateChoice_value (k : KmerCanonical) :
    (updateChoice k).value = min k.table0 k.table1 := by
  unfold updateChoice KmerCanonical.value
  rw [Nat.min_def]
  by_cases h : k.table0 < k.table1
  · simp [h, le_of_lt h]
  · by_cases h2 : k.table0 ≤ k.table1 <;> simp [h, h2] <;> omega

theorem canonical1_value (v : Nat) : (canonical1 v).value = v := by
  simp [canonical1, updateChoice_value]

theorem polynom_succ (e : Encoding) (seq : List Nat) (K : Nat) :
    polynom e seq (K + 1)
      = ((polynom e seq K).1 <<< 2 + (convertGet e seq K).1,
         if (convertGet e seq K).2 ≠ 0 then (K : Int) else (polynom e seq K).2) := by
  unfold polynom
  rw [List.range_succ, List.foldl_append]
  rfl

theorem windowVal_succ (e : Encoding) (seq : List Nat) (s K : Nat) :
    windowVal e seq s (K + 1)
      = windowVal e seq s K * 4 + (convertGet e seq (s + K)).1 := by
  unfold windowVal
  rw [List.range_succ, List.foldl_append]
  rfl

theorem polynom_eq (e : Encoding) (seq : List Nat) (K : Nat) :
    polynom e seq K = (windowVal e seq 0 K, lastBad e seq K) := by
  induction K with
  | zero => rfl
  | succ K ih =>
    rw [polynom_succ, ih, windowVal_succ]
    show (windowVal e seq 0 K <<< 2 + _, _) = _
    rw [Nat.shiftLeft_eq]
    norm_num [lastBad]

theorem windowVal_succ_left (e : Encoding) (seq : List Nat) (s : Nat) :
    ∀ K : Nat, windowVal e seq s (K + 1)
      = (convertGet e seq s).1 * 4 ^ K + windowVal e seq (s + 1) K := by
  intro K
  induction K with
  | zero =>
    rw [windowVal_succ]
    simp [windowVal]
  | succ K ih =>
    rw [windowVal_succ, ih, windowVal_succ]
    have harg : s + 1 + K = s + (K + 1) := by omega
    rw [harg]
    ring

theorem windowVal_lt (e : Encoding) (seq : List Nat) (s : Nat)
    (hcodes : ∀ i, (convertGet e seq i).1 < 4) :
    ∀ K : Nat, windowVal e seq s K < 4 ^ K := by
  intro K
  induction K with
  | zero => simp [windowVal]
  | succ K ih =>
    rw [windowVal_succ]
    have h := hcodes (s + K)
    have h4 : (4 : Nat) ^ (K + 1) = 4 ^ K * 4 := by ring
    omega

theorem windowVal_slide (e : Encoding) (seq : List Nat) (s K : Nat)
    (hcodes : ∀ i, (convertGet e seq i).1 < 4) :
    (windowVal e seq s (K + 1) * 4 + (convertGet e seq (s + (K + 1))).1) % 4 ^ (K + 1)
      = windowVal e seq (s + 1) (K + 1) := by
  rw [windowVal_succ_left e seq s K]
  have harg : s + (K + 1) = s + 1 + K := by omega
  have hsum : windowVal e seq (s + 1) K * 4 + (convertGet e seq (s + 1 + K)).1
      = windowVal e seq (s + 1) (K + 1) := (windowVal_succ e seq (s + 1) K).symm
  have hlt : windowVal e seq (s + 1) (K + 1) < 4 ^ (K + 1) :=
    windowVal_lt e seq (s + 1) hcodes (K + 1)
  have hexp : ((convertGet e seq s).1 * 4 ^ K + windowVal e seq (s + 1) K) * 4
        + (convertGet e seq (s + (K + 1))).1
      = (convertGet e seq s).1 * 4 ^ (K + 1) + windowVal e seq (s + 1) (K + 1) := by
    rw [← hsum, harg]
    ring
  rw [hexp, mul_comm ((convertGet e seq s).1) (4 ^ (K + 1)), Nat.mul_add_mod,
    Nat.mod_eq_of_lt hlt]

theorem canonicalNext_table0 (K c : Nat) (k : KmerCanonical) (v : Bool)
    (hK : 1 ≤ K) (hc : c < 4) (h0 : k.table0 < 4 ^ K) :
    (canonicalNext K c k v).table0 = (k.table0 * 4 + c) % 4 ^ K := by
  show ((k.table0 <<< 2) + c) &&& (2 ^ (2 * K) - 1) = _
  rw [Nat.shiftLeft_eq, Nat.and_pow_two_sub_one_eq_mod, two_pow_two_mul]

theorem canonicalNext_inv (K c : Nat) (k : KmerCanonical) (v : Bool)
    (hK : 1 ≤ K) (hc : c < 4) (h0 : k.table0 < 4 ^ K)
    (h1 : k.table1 = revcompNat k.table0 K) :
    (canonicalNext K c k v).table0 < 4 ^ K
      ∧ (canonicalNext K c k v).table1 = revcompNat ((canonicalNext K c k v).table0) K := by
  obtain ⟨k', rfl⟩ : ∃ k', K = k' + 1 := ⟨K - 1, by omega⟩
  have ht0 := canonicalNext_table0 (k' + 1) c k v hK hc h0
  constructor
  · rw [ht0]
    exact Nat.mod_lt _ (Nat.pos_pow_of_pos _ (by norm_num))
  · have ht1 : (canonicalNext (k' + 1) c k v).table1
        = (k.table1 / 4 + (c ^^^ 2) * 4 ^ k') % 4 ^ (k' + 1) := by
      show ((k.table1 >>> 2) + revcompTable (k' + 1) c) &&& (2 ^ (2 * (k' + 1)) - 1) = _
      unfold revcompTable compNT
      rw [Nat.add_sub_cancel, Nat.and_pow_two_sub_one_eq_mod, two_pow_two_mul (k' + 1),
        Nat.shiftLeft_eq, two_pow_two_mul k', Nat.shiftRight_eq_div_pow]
    have hrevlt : revcompNat k.table0 (k' + 1) < 4 ^ (k' + 1) := revcompNat_lt _ _
    have hd : k.table1 / 4 < 4 ^ k' := by
      rw [h1]
      apply Nat.div_lt_of_lt_mul
      have h4 : (4 : Nat) ^ (k' + 1) = 4 * 4 ^ k' := by ring
      rw [← h4]
      exact hrevlt
    have hx : c ^^^ 2 < 4 := xor2_lt hc
    have hsumlt : k.table1 / 4 + (c ^^^ 2) * 4 ^ k' < 4 ^ (k' + 1) := by
      have h3 : (c ^^^ 2) * 4 ^ k' ≤ 3 * 4 ^ k' := Nat.mul_le_mul_right _ (by omega)
      have h4 : (4 : Nat) ^ (k' + 1) = 4 * 4 ^ k' := by ring
      omega
    rw [ht1, ht0, Nat.mod_eq_of_lt hsumlt, h1,
      revcompNat_slide k' k.table0 c h0 hc]


theorem updateChoice_table0 (k : KmerCanonical) : (updateChoice k).table0 = k.table0 := rfl

theorem updateChoice_table1 (k : KmerCanonical) : (updateChoice k).table1 = k.table1 := rfl

theorem convertGet_ASCII_code_lt (seq : List Nat) (i : Nat) :
    (convertGet .ASCII seq i).1 < 4 := by
  show ((seq.getD i 0 >>> 1) &&& 3) < 4
  have h : (3 : Nat) = 2 ^ 2 - 1 := by norm_num
  rw [h, Nat.and_pow_two_sub_one_eq_mod]
  exact Nat.mod_lt _ (by norm_num)

theorem canonicalFirst_inv (e : Encoding) (seq : List Nat) (K : Nat)
    (hcodes : ∀ i, (convertGet e seq i).1 < 4) :
    (canonicalFirst e seq K).1.table0 < 4 ^ K
      ∧ (canonicalFirst e seq K).1.table1
        = revcompNat ((canonicalFirst e seq K).1.table0) K := by
  constructor
  · show (polynom e seq K).1 < 4 ^ K
    rw [polynom_eq]
    exact windowVal_lt e seq 0 hcodes K
  · rfl

theorem canonicalFold_inv (K : Nat) (hK : 1 ≤ K) :
    ∀ (steps : List (Nat × Bool)) (k : KmerCanonical),
      (∀ s ∈ steps, s.1 < 4) → k.table0 < 4 ^ K → k.table1 = revcompNat k.table0 K →
      (steps.foldl (fun k s => canonicalNext K s.1 k s.2) k).table0 < 4 ^ K
        ∧ (steps.foldl (fun k s => canonicalNext K s.1 k s.2) k).table1
          = revcompNat ((steps.foldl (fun k s => canonicalNext K s.1 k s.2) k).table0) K := by
  intro steps
  induction steps with
  | nil => intro k _ h0 h1; exact ⟨h0, h1⟩
  | cons s ss ih =>
    intro k hs h0 h1
    simp only [List.foldl_cons]
    have hnext := canonicalNext_inv K s.1 k s.2 hK (hs s (by simp)) h0 h1
    exact ih _ (fun t ht => hs t (by simp [ht])) hnext.1 hnext.2

theorem canonicalFold_updated (K : Nat) :
    ∀ (steps : List (Nat × Bool)) (k0 : KmerCanonical),
      ∃ k1, steps.foldl (fun k s => canonicalNext K s.1 k s.2) (updateChoice k0)
        = updateChoice k1 := by
  intro steps
  induction steps with
  | nil => intro k0; exact ⟨k0, rfl⟩
  | cons s ss ih =>
    intro k0
    simp only [List.foldl_cons]
    exact ih _

theorem canonicalChain_updated (e : Encoding) (seq : List Nat) (K : Nat)
    (steps : List (Nat × Bool)) :
    ∃ k1, canonicalChain e seq K steps = updateChoice k1 :=
  canonicalFold_updated K steps _

/-- Claim C3, amended: for every canonical kmer produced by `first` followed
by any sequence of `next` steps (valid DNA codes), the reverse complement
field equals RC(forward, K); `choice = 0` holds if and only if
`forward < revcomp` strictly (the code compares with `<`, so a palindromic
kmer with forward = revcomp gets choice 1, not 0 as the claim stated); and
the delivered value is `min(forward, revcomp)`. -/
theorem canonical_strand_invariant (e : Encoding) (seq : List Nat) (K : Nat)
    (steps : List (Nat × Bool)) (hK : 1 ≤ K)
    (hcodes : ∀ i, (convertGet e seq i).1 < 4)
    (hsteps : ∀ s ∈ steps, s.1 < 4) :
    (canonicalChain e seq K steps).table1
      = revcompNat ((canonicalChain e seq K steps).table0) K
    ∧ ((canonicalChain e seq K steps).choice = 0
        ↔ (canonicalChain e seq K steps).table0 < (canonicalChain e seq K steps).table1)
    ∧ (canonicalChain e seq K steps).value
      = min ((canonicalChain e seq K steps).table0) ((canonicalChain e seq K steps).table1) := by
  have hbase := canonicalFirst_inv e seq K hcodes
  have hinv := canonicalFold_inv K hK steps (canonicalFirst e seq K).1 hsteps hbase.1 hbase.2
  obtain ⟨k1, hk1⟩ := canonicalChain_updated e seq K steps
  refine ⟨hinv.2, ?_, ?_⟩
  · rw [hk1, updateChoice_choice_iff, ← updateChoice_table0 k1, ← updateChoice_table1 k1]
  · rw [hk1, updateChoice_value, ← updateChoice_table0 k1, ← updateChoice_table1 k1]

/-- Claim C3, counterexample to the claim as stated: K = 2, ASCII input
"AT" (a palindrome): forward = revcomp = 2 so forward ≤ revcomp, but the
code sets choice = 1, contradicting the claimed
`choice == 0 ⇔ forward ≤ revcomp`. -/
theorem canonical_choice_tie_cx :
    (canonicalChain .ASCII [65, 84] 2 []).table0
        ≤ (canonicalChain .ASCII [65, 84] 2 []).table1
      ∧ ¬((canonicalChain .ASCII [65, 84] 2 []).choice = 0) := by
  decide

theorem canonical_strand_invariant_witness :
    (1 ≤ 3)
    ∧ ((canonicalChain .ASCII [65, 67, 71, 84] 3 [(2, true)]).table1
        = revcompNat ((canonicalChain .ASCII [65, 67, 71, 84] 3 [(2, true)]).table0) 3
      ∧ ((canonicalChain .ASCII [65, 67, 71, 84] 3 [(2, true)]).choice = 0
          ↔ (canonicalChain .ASCII [65, 67, 71, 84] 3 [(2, true)]).table0
            < (canonicalChain .ASCII [65, 67, 71, 84] 3 [(2, true)]).table1)
      ∧ (canonicalChain .ASCII [65, 67, 71, 84] 3 [(2, true)]).value
        = min ((canonicalChain .ASCII [65, 67, 71, 84] 3 [(2, true)]).table0)
            ((canonicalChain .ASCII [65, 67, 71, 84] 3 [(2, true)]).table1)) :=
  ⟨by decide,
   canonical_strand_invariant .ASCII [65, 67, 71, 84] 3 [(2, true)] (by decide)
     (fun i => convertGet_ASCII_code_lt [65, 67, 71, 84] i) (by decide)⟩

/-! ## Claim C9: codeSeedRight validity -/

/-- Claim C9: `codeSeedRight` derives the valid flag of its result from the
newly appended nucleotide alone: for every previous kmer (in particular one
delivered with valid = false), the result is valid as soon as the decoder
reports the new nucleotide valid, and the result does not depend on the
validity of the previous kmer; the K-1 window-counter propagation of
invalidity exists only inside `iterate`. -/
theorem codeSeedRight_validity (e : Encoding) (K : Nat) (k1 k2 : KmerDirect)
    (nucl : Nat) (h : (convertGet e [nucl] 0).2 = 0) :
    (codeSeedRightDirect e K k1 nucl).isValid = true
    ∧ (codeSeedRightDirect e K k1 nucl).isValid
      = (codeSeedRightDirect e K k2 nucl).isValid := by
  unfold codeSeedRightDirect nextDirect
  simp [h]

theorem codeSeedRight_validity_witness :
    (convertGet .ASCII [65] 0).2 = 0
    ∧ ((codeSeedRightDirect .ASCII 4 ⟨31, false⟩ 65).isValid = true
      ∧ (codeSeedRightDirect .ASCII 4 ⟨31, false⟩ 65).isValid
        = (codeSeedRightDirect .ASCII 4 ⟨30, true⟩ 65).isValid) :=
  ⟨by decide, codeSeedRight_validity .ASCII 4 ⟨31, false⟩ ⟨30, true⟩ 65 (by decide)⟩

/-! ## Claim C6: neighbor enumeration -/

/-- Claim C6: `iterateNeighbors(s, fct, 0xFF)` invokes the callback exactly
8 times: the outgoing neighbors for nt = 0,1,2,3 in that order, then the
incoming neighbors for nt = 0,1,2,3; the outgoing value for nt is
`min(next1, RC(next1, K))` with `next1 = ((s << 2) | nt) & mask` and the
incoming value for nt uses `next1 = ((RC(s, K) << 2) | (nt ^ 2)) & mask`. -/
theorem neighbors_enumeration (K : Nat) (s : Nat) :
    iterateNeighborsList K s 255
      = [min (((s <<< 2) ||| 0) &&& (2 ^ (2 * K) - 1))
             (revcompNat (((s <<< 2) ||| 0) &&& (2 ^ (2 * K) - 1)) K),
         min (((s <<< 2) ||| 1) &&& (2 ^ (2 * K) - 1))
             (revcompNat (((s <<< 2) ||| 1) &&& (2 ^ (2 * K) - 1)) K),
         min (((s <<< 2) ||| 2) &&& (2 ^ (2 * K) - 1))
             (revcompNat (((s <<< 2) ||| 2) &&& (2 ^ (2 * K) - 1)) K),
         min (((s <<< 2) ||| 3) &&& (2 ^ (2 * K) - 1))
             (revcompNat (((s <<< 2) ||| 3) &&& (2 ^ (2 * K) - 1)) K),
         min (((revcompNat s K <<< 2) ||| (0 ^^^ 2)) &&& (2 ^ (2 * K) - 1))
             (revcompNat (((revcompNat s K <<< 2) ||| (0 ^^^ 2)) &&& (2 ^ (2 * K) - 1)) K),
         min (((revcompNat s K <<< 2) ||| (1 ^^^ 2)) &&& (2 ^ (2 * K) - 1))
             (revcompNat (((revcompNat s K <<< 2) ||| (1 ^^^ 2)) &&& (2 ^ (2 * K) - 1)) K),
         min (((revcompNat s K <<< 2) ||| (2 ^^^ 2)) &&& (2 ^ (2 * K) - 1))
             (revcompNat (((revcompNat s K <<< 2) ||| (2 ^^^ 2)) &&& (2 ^ (2 * K) - 1)) K),
         min (((revcompNat s K <<< 2) ||| (3 ^^^ 2)) &&& (2 ^ (2 * K) - 1))
             (revcompNat (((revcompNat s K <<< 2) ||| (3 ^^^ 2)) &&& (2 ^ (2 * K) - 1)) K)] := by
  have hor : ∀ a c : Nat, c < 4 → (a <<< 2) ||| c = a * 4 + c := by
    intro a c hc
    rw [Nat.shiftLeft_eq]
    norm_num
    exact mul4_lor_eq_add a c hc
  rw [hor s 0 (by norm_num), hor s 1 (by norm_num), hor s 2 (by norm_num),
    hor s 3 (by norm_num), hor (revcompNat s K) (0 ^^^ 2) (by decide),
    hor (revcompNat s K) (1 ^^^ 2) (by decide),
    hor (revcompNat s K) (2 ^^^ 2) (by decide),
    hor (revcompNat s K) (3 ^^^ 2) (by decide)]
  rfl

/-! ## Claim C7: minimizer lookup table -/

/-- Claim C7: for every m-mer index x, `mmerLut[x]` is the canonical form
`min(x, RC(x, m))` when that canonical form passes `is_allowed`, and the
sentinel `mmerMask` otherwise; consequently
`mmerLut[x] == mmerLut[RC(x, m)]`. -/
theorem mmerLut_eq (m x : Nat) :
    mmerLut m x = if is_allowed (min x (revcompNat x m)) m
      then min x (revcompNat x m) else 2 ^ (2 * m) - 1 := by
  have hmin1 : (if revcompNat x m < x then revcompNat x m else x)
      = min x (revcompNat x m) := by
    rw [Nat.min_def]
    by_cases h : revcompNat x m < x
    · rw [if_pos h, if_neg (by omega)]
    · rw [if_neg h, if_pos (by omega)]
  show (if is_allowed (if revcompNat x m < x then revcompNat x m else x) m = true
      then (if revcompNat x m < x then revcompNat x m else x)
      else 2 ^ (2 * m) - 1) = _
  rw [hmin1]

theorem mmerLut_canonical_folding (m x : Nat) (hx : x < 2 ^ (2 * m)) :
    (mmerLut m x = if is_allowed (min x (revcompNat x m)) m
        then min x (revcompNat x m) else 2 ^ (2 * m) - 1)
    ∧ mmerLut m x = mmerLut m (revcompNat x m) := by
  have hxm : x < 4 ^ m := by rw [← two_pow_two_mul]; exact hx
  refine ⟨mmerLut_eq m x, ?_⟩
  rw [mmerLut_eq m x, mmerLut_eq m (revcompNat x m),
    revcompNat_involutive m x hxm, Nat.min_comm (revcompNat x m) x]

theorem mmerLut_canonical_folding_witness :
    (21 < 2 ^ (2 * 3))
    ∧ ((mmerLut 3 21 = if is_allowed (min 21 (revcompNat 21 3)) 3
          then min 21 (revcompNat 21 3) else 2 ^ (2 * 3) - 1)
      ∧ mmerLut 3 21 = mmerLut 3 (revcompNat 21 3)) :=
  ⟨by decide, mmerLut_canonical_folding 3 21 (by decide)⟩

/-! ## Claim C8: the is_allowed bit test -/

theorem testBit_evenMask (n : Nat) :
    ∀ k, (evenMask n).testBit k = (decide (k % 2 = 0) && decide (k < 2 * n)) := by
  induction n with
  | zero =>
    intro k
    show (0 : Nat).testBit k = _
    simp [Nat.zero_testBit]
  | succ n ih =>
    intro k
    show (4 * evenMask n + 1).testBit k = _
    have tb0 : ∀ a : Nat, a.testBit 0 = decide (a % 2 = 1) := by
      intro a
      rw [Nat.testBit_to_div_mod]
      norm_num
    match k with
    | 0 =>
      rw [tb0]
      have h1 : (4 * evenMask n + 1) % 2 = 1 := by omega
      have h2 : 0 < 2 * (n + 1) := by omega
      simp [h1, h2]
    | 1 =>
      rw [Nat.testBit_succ, show (4 * evenMask n + 1) / 2 = 2 * evenMask n by omega,
        tb0]
      have h1 : 2 * evenMask n % 2 = 0 := by omega
      simp [h1]
    | k + 2 =>
      rw [Nat.testBit_succ, show (4 * evenMask n + 1) / 2 = 2 * evenMask n by omega,
        Nat.testBit_succ, show 2 * evenMask n / 2 = evenMask n by omega, ih k]
      have e1 : decide ((k + 1 + 1) % 2 = 0) = decide (k % 2 = 0) :=
        decide_eq_decide.mpr (by omega)
      have e2 : decide (k + 1 + 1 < 2 * (n + 1)) = decide (k < 2 * n) :=
        decide_eq_decide.mpr (by omega)
      rw [e1, e2]

theorem land_eq_zero_iff {a b : Nat} :
    a &&& b = 0 ↔ ∀ k, ¬(a.testBit k = true ∧ b.testBit k = true) := by
  constructor
  · intro h k hk
    have h2 := congrArg (fun x => x.testBit k) h
    simp only [Nat.testBit_land] at h2
    rw [hk.1, hk.2] at h2
    simp [Nat.zero_testBit] at h2
  · intro h
    apply Nat.zero_of_testBit_eq_false
    intro i
    rw [Nat.testBit_land]
    cases hA : a.testBit i with
    | false => simp
    | true =>
      cases hB : b.testBit i with
      | false => simp
      | true => exact absurd ⟨hA, hB⟩ (h i)

theorem shift_and3_eq_zero_iff (x s : Nat) :
    ((x >>> s) &&& 3 = 0) ↔ (x.testBit s = false ∧ x.testBit (s + 1) = false) := by
  have h3 : (3 : Nat) = 2 ^ 2 - 1 := by norm_num
  rw [h3, Nat.and_pow_two_sub_one_eq_mod, Nat.shiftRight_eq_div_pow,
    Nat.testBit_to_div_mod, Nat.testBit_to_div_mod]
  have hs1 : x / 2 ^ (s + 1) = x / 2 ^ s / 2 := by
    rw [pow_succ, ← Nat.div_div_eq_div_mul]
  rw [hs1]
  have h4 : (2 : Nat) ^ 2 = 4 := by norm_num
  rw [h4]
  simp only [decide_eq_false_iff_not]
  omega

theorem allowedAux_testBit (x m i : Nat) (hi : i < 2 * m + 4) :
    ((2 ^ (2 * m + 4) - 1) ^^^ (x ||| (x >>> 2))).testBit i
      = !(x.testBit i || x.testBit (i + 2)) := by
  rw [Nat.testBit_xor, Nat.testBit_two_pow_sub_one, Nat.testBit_lor]
  have h2 : (x >>> 2).testBit i = x.testBit (i + 2) := by
    simp [Nat.testBit_shiftRight, Nat.add_comm 2 i]
  rw [h2]
  simp [hi]

theorem t2_testBit_iff (x m j : Nat) (hj : 2 * j + 3 < 2 * m + 4) :
    (((((2 ^ (2 * m + 4) - 1) ^^^ (x ||| (x >>> 2))) >>> 1)
        &&& ((2 ^ (2 * m + 4) - 1) ^^^ (x ||| (x >>> 2)))).testBit (2 * j) = true)
      ↔ ((x >>> (2 * j)) &&& 3 = 0 ∧ (x >>> (2 * (j + 1))) &&& 3 = 0) := by
  rw [Nat.testBit_land]
  have hsh : ((((2 ^ (2 * m + 4) - 1) ^^^ (x ||| (x >>> 2)))) >>> 1).testBit (2 * j)
      = ((2 ^ (2 * m + 4) - 1) ^^^ (x ||| (x >>> 2))).testBit (2 * j + 1) := by
    simp [Nat.testBit_shiftRight, Nat.add_comm 1 (2 * j)]
  rw [hsh, allowedAux_testBit x m (2 * j + 1) (by omega),
    allowedAux_testBit x m (2 * j) (by omega),
    shift_and3_eq_zero_iff, shift_and3_eq_zero_iff]
  have harg1 : 2 * j + 1 + 2 = 2 * j + 3 := by omega
  have harg2 : 2 * (j + 1) = 2 * j + 2 := by omega
  have harg3 : 2 * j + 2 + 1 = 2 * j + 3 := by omega
  rw [harg1, harg2, harg3]
  cases hb0 : x.testBit (2 * j) <;> cases hb1 : x.testBit (2 * j + 1)
    <;> cases hb2 : x.testBit (2 * j + 2) <;> cases hb3 : x.testBit (2 * j + 3)
    <;> simp

/-- Claim C8: for every m at least 2 and every 2m-bit pattern x, the
`is_allowed` bit test accepts x exactly when x contains no two consecutive
A digits (00) outside the top two digit positions, i.e. when there is no
j < m-2 with the 2-bit digits at positions j and j+1 both zero. -/
theorem is_allowed_iff_no_AA (m x : Nat) (hm : 2 ≤ m) (hx : x < 2 ^ (2 * m)) :
    (is_allowed x m = true
      ↔ ∀ j, j < m - 2 →
          ¬((x >>> (2 * j)) &&& 3 = 0 ∧ (x >>> (2 * (j + 1))) &&& 3 = 0)) := by
  unfold is_allowed
  simp only [beq_iff_eq]
  rw [land_eq_zero_iff]
  constructor
  · intro h j hj hc
    apply h (2 * j)
    refine ⟨?_, ?_⟩
    · exact (t2_testBit_iff x m j (by omega)).mpr hc
    · rw [testBit_evenMask]
      have h1 : (2 * j) % 2 = 0 := by omega
      have h2 : 2 * j < 2 * (m - 2) := by omega
      simp [h1, h2]
  · intro h k hk
    obtain ⟨ht2, hem⟩ := hk
    rw [testBit_evenMask] at hem
    have hev : k % 2 = 0 ∧ k < 2 * (m - 2) := by
      constructor
      · by_contra hc
        simp [hc] at hem
      · by_contra hc
        simp [hc] at hem
    obtain ⟨j, rfl⟩ : ∃ j, k = 2 * j := ⟨k / 2, by omega⟩
    exact h j (by omega) ((t2_testBit_iff x m j (by omega)).mp ht2)

theorem is_allowed_iff_no_AA_witness :
    ((2 ≤ 4 ∧ 217 < 2 ^ (2 * 4)))
    ∧ (is_allowed 217 4 = true
      ↔ ∀ j, j < 4 - 2 →
          ¬((217 >>> (2 * j)) &&& 3 = 0 ∧ (217 >>> (2 * (j + 1))) &&& 3 = 0)) :=
  ⟨by decide, is_allowed_iff_no_AA 4 217 (by decide) (by decide)⟩

/-! ## Claims C4 and C5: iteration -/

theorem lastBad_lt_iff (e : Encoding) (seq : List Nat) (j : Nat) :
    ∀ n, (lastBad e seq n < (j : Int))
      ↔ ∀ i, j ≤ i → i < n → (convertGet e seq i).2 = 0 := by
  intro n
  induction n with
  | zero =>
    simp only [lastBad]
    constructor
    · intro _ i _ hi
      omega
    · intro _
      omega
  | succ n ih =>
    show (if (convertGet e seq n).2 ≠ 0 then (n : Int) else lastBad e seq n) < j ↔ _
    by_cases h : (convertGet e seq n).2 ≠ 0
    · rw [if_pos h]
      constructor
      · intro hn i hji hi
        exfalso
        omega
      · intro hr
        by_contra hcon
        exact h (hr n (by omega) (by omega))
    · rw [if_neg h]
      push_neg at h
      constructor
      · intro hn i hji hi
        by_cases hin : i = n
        · rw [hin]
          exact h
        · exact ih.mp hn i hji (by omega)
      · intro hr
        exact ih.mpr (fun i hji hi => hr i hji (by omega))

theorem iterDirectGo_valid (e : Encoding) (seq : List Nat) (K : Nat) :
    ∀ (cnt idx : Nat) (st : KmerDirect) (bad : Int) (outIdx : Nat),
      bad = lastBad e seq idx - ((idx : Int) - K) →
      outIdx + K = idx + 1 →
      ∀ p ∈ iterDirectGo e seq K idx cnt st bad outIdx,
        (p.1.isValid = true ↔ lastBad e seq (p.2 + K) < (p.2 : Int)) := by
  intro cnt
  induction cnt with
  | zero =>
    intro idx st bad outIdx _ _ p hp
    simp [iterDirectGo] at hp
  | succ cnt ih =>
    intro idx st bad outIdx hbad hout p hp
    rw [show iterDirectGo e seq K idx (cnt + 1) st bad outIdx
        = (nextDirect K (convertGet e seq idx).1 st
             (decide ((if (convertGet e seq idx).2 ≠ 0 then (K : Int) - 1 else bad - 1) < 0)),
           outIdx)
          :: iterDirectGo e seq K (idx + 1) cnt
               (nextDirect K (convertGet e seq idx).1 st
                 (decide ((if (convertGet e seq idx).2 ≠ 0 then (K : Int) - 1 else bad - 1) < 0)))
               (if (convertGet e seq idx).2 ≠ 0 then (K : Int) - 1 else bad - 1)
               (outIdx + 1)
      from rfl] at hp
    have hlb : lastBad e seq (idx + 1)
        = if (convertGet e seq idx).2 ≠ 0 then (idx : Int) else lastBad e seq idx := rfl
    rcases List.mem_cons.mp hp with hhead | htail
    · rw [hhead]
      show decide ((if (convertGet e seq idx).2 ≠ 0 then (K : Int) - 1 else bad - 1) < 0) = true
          ↔ lastBad e seq (outIdx + K) < (outIdx : Int)
      rw [decide_eq_true_eq, show outIdx + K = idx + 1 from by omega, hlb]
      by_cases hc : (convertGet e seq idx).2 ≠ 0
      · rw [if_pos hc, if_pos hc]
        omega
      · rw [if_neg hc, if_neg hc]
        omega
    · refine ih (idx + 1) _ _ (outIdx + 1) ?_ (by omega) p htail
      rw [hlb]
      by_cases hc : (convertGet e seq idx).2 ≠ 0
      · rw [if_pos hc, if_pos hc]
        omega
      · rw [if_neg hc, if_neg hc]
        omega

/-- Claim C4: during iteration a kmer is delivered with valid = false exactly
when an invalid symbol occurred among the K symbols of its window (the
window of the kmer delivered with output index t is [t, t+K)); concretely,
for K = 4 and ASCII input "ACGNACGT" the model produces exactly five kmers,
the first four invalid and the fifth valid with forward value 30. -/
theorem iterate_validity_window (e : Encoding) (seq : List Nat) (K : Nat) :
    (∀ p ∈ (iterateDirect e seq K).2,
        (p.1.isValid = true
          ↔ ∀ i, p.2 ≤ i → i < p.2 + K → (convertGet e seq i).2 = 0))
    ∧ iterateDirect .ASCII [65, 67, 71, 78, 65, 67, 71, 84] 4
        = (true, [(⟨31, false⟩, 0), (⟨124, false⟩, 1), (⟨241, false⟩, 2),
                  (⟨199, false⟩, 3), (⟨30, true⟩, 4)]) := by
  constructor
  · intro p hp
    rw [← lastBad_lt_iff e seq p.2 (p.2 + K)]
    unfold iterateDirect at hp
    by_cases hg : nbKmersI32 seq.length K ≤ 0
    · rw [if_pos hg] at hp
      simp at hp
    · rw [if_neg hg] at hp
      simp only at hp
      rcases List.mem_cons.mp hp with hhead | htail
      · rw [hhead]
        show decide ((polynom e seq K).2 < 0) = true ↔ _
        rw [decide_eq_true_eq, polynom_eq]
        show lastBad e seq K < (0 : Int) ↔ lastBad e seq (0 + K) < ((0 : Nat) : Int)
        rw [Nat.zero_add]
        norm_num
      · refine iterDirectGo_valid e seq K (seq.length - K) K _ _ 1 ?_ (by omega) p htail
        rw [polynom_eq]
        push_cast
        ring
  · decide

theorem iterate_validity_window_witness :
    ((⟨30, true⟩, 4) ∈ (iterateDirect .ASCII [65, 67, 71, 78, 65, 67, 71, 84] 4).2)
    ∧ (((⟨30, true⟩, 4) : KmerDirect × Nat).1.isValid = true
        ↔ ∀ i, 4 ≤ i → i < 4 + 4
          → (convertGet .ASCII [65, 67, 71, 78, 65, 67, 71, 84] i).2 = 0) :=
  ⟨by decide,
   (iterate_validity_window .ASCII [65, 67, 71, 78, 65, 67, 71, 84] 4).1 _ (by decide)⟩

theorem nbKmers_guard (len K : Nat) (hK1 : 1 ≤ K) (hK2 : K ≤ 2 ^ 31)
    (hlen : len < 2 ^ 31) :
    (nbKmersI32 len K ≤ 0 ↔ len < K)
    ∧ (K ≤ len → nbKmersI32 len K = ((len - K + 1 : Nat) : Int)) := by
  unfold nbKmersI32 sub64 i32OfNat
  constructor
  · split_ifs with h
    · constructor
      · intro h2
        push_cast at h2 ⊢
        omega
      · intro h2
        push_cast
        omega
    · constructor
      · intro _
        omega
      · intro _
        push_cast
        omega
  · intro hKlen
    split_ifs with h
    · push_cast
      omega
    · exfalso
      omega

theorem iterDirectGo_length (e : Encoding) (seq : List Nat) (K : Nat) :
    ∀ (cnt idx : Nat) (st : KmerDirect) (bad : Int) (outIdx : Nat),
      (iterDirectGo e seq K idx cnt st bad outIdx).length = cnt := by
  intro cnt
  induction cnt with
  | zero =>
    intro idx st bad outIdx
    rfl
  | succ cnt ih =>
    intro idx st bad outIdx
    show _ + 1 = cnt + 1
    rw [ih]

theorem iterDirectGo_getD (e : Encoding) (seq : List Nat) (K : Nat)
    (hcodes : ∀ i, (convertGet e seq i).1 < 4) (hK : 1 ≤ K) :
    ∀ (cnt s : Nat) (st : KmerDirect) (bad : Int),
      st.value = windowVal e seq s K →
      ∀ t, t < cnt →
        ((iterDirectGo e seq K (s + K) cnt st bad (s + 1)).getD t (⟨0, false⟩, 0)).2
            = s + 1 + t
        ∧ ((iterDirectGo e seq K (s + K) cnt st bad (s + 1)).getD t (⟨0, false⟩, 0)).1.value
            = windowVal e seq (s + 1 + t) K := by
  intro cnt
  induction cnt with
  | zero =>
    intro s st bad _ t ht
    omega
  | succ cnt ih =>
    intro s st bad hst t ht
    obtain ⟨k, rfl⟩ : ∃ k, K = k + 1 := ⟨K - 1, by omega⟩
    have hstval : (nextDirect (k + 1) (convertGet e seq (s + (k + 1))).1 st
          (decide ((if (convertGet e seq (s + (k + 1))).2 ≠ 0
            then ((k + 1 : Nat) : Int) - 1 else bad - 1) < 0))).value
        = windowVal e seq (s + 1) (k + 1) := by
      show ((st.value <<< 2) + (convertGet e seq (s + (k + 1))).1)
            &&& (2 ^ (2 * (k + 1)) - 1) = _
      rw [Nat.shiftLeft_eq, Nat.and_pow_two_sub_one_eq_mod, two_pow_two_mul, hst]
      rw [show windowVal e seq s (k + 1) * 2 ^ 2 = windowVal e seq s (k + 1) * 4 from by ring]
      exact windowVal_slide e seq s k hcodes
    rw [show iterDirectGo e seq (k + 1) (s + (k + 1)) (cnt + 1) st bad (s + 1)
        = (nextDirect (k + 1) (convertGet e seq (s + (k + 1))).1 st
             (decide ((if (convertGet e seq (s + (k + 1))).2 ≠ 0
               then ((k + 1 : Nat) : Int) - 1 else bad - 1) < 0)), s + 1)
          :: iterDirectGo e seq (k + 1) (s + (k + 1) + 1) cnt
               (nextDirect (k + 1) (convertGet e seq (s + (k + 1))).1 st
                 (decide ((if (convertGet e seq (s + (k + 1))).2 ≠ 0
                   then ((k + 1 : Nat) : Int) - 1 else bad - 1) < 0)))
               (if (convertGet e seq (s + (k + 1))).2 ≠ 0
                 then ((k + 1 : Nat) : Int) - 1 else bad - 1)
               (s + 1 + 1)
      from rfl]
    match t with
    | 0 =>
      refine ⟨rfl, ?_⟩
      show (nextDirect (k + 1) _ st _).value = _
      rw [hstval]
    | t + 1 =>
      have hrec := ih (s + 1)
        (nextDirect (k + 1) (convertGet e seq (s + (k + 1))).1 st
          (decide ((if (convertGet e seq (s + (k + 1))).2 ≠ 0
            then ((k + 1 : Nat) : Int) - 1 else bad - 1) < 0)))
        (if (convertGet e seq (s + (k + 1))).2 ≠ 0
          then ((k + 1 : Nat) : Int) - 1 else bad - 1)
        hstval t (by omega)
      rw [show s + (k + 1) + 1 = s + 1 + (k + 1) from by omega]
      refine ⟨?_, ?_⟩
      · show ((iterDirectGo e seq (k + 1) (s + 1 + (k + 1)) cnt _ _ (s + 1 + 1)).getD t
            (⟨0, false⟩, 0)).2 = _
        rw [hrec.1]
        omega
      · show ((iterDirectGo e seq (k + 1) (s + 1 + (k + 1)) cnt _ _ (s + 1 + 1)).getD t
            (⟨0, false⟩, 0)).1.value = _
        rw [hrec.2]
        rw [show s + 1 + 1 + t = s + 1 + (t + 1) from by omega]

/-- Claim C5 (amended): provided the kmer count fits a signed 32-bit integer
(hypotheses len < 2^31, K ≤ 2^31), iterate and build return false and emit
nothing iff len < K; otherwise they succeed, emit exactly len-K+1 kmers in
strict left-to-right order: the kmer delivered with output index t is the
polynomial of the window [t, t+K) (equivalently, the kmer whose last symbol
sits at input index i is delivered with output index i-K+1). -/
theorem iterate_build_count_order (e : Encoding) (seq : List Nat) (K : Nat)
    (hK1 : 1 ≤ K) (hK2 : K ≤ 2 ^ 31) (hlen : seq.length < 2 ^ 31)
    (hcodes : ∀ i, (convertGet e seq i).1 < 4) :
    (seq.length < K →
      iterateDirect e seq K = (false, []) ∧ buildDirect e seq K = none)
    ∧ (K ≤ seq.length →
      (iterateDirect e seq K).1 = true
      ∧ buildDirect e seq K = some ((iterateDirect e seq K).2.map Prod.fst)
      ∧ (iterateDirect e seq K).2.length = seq.length - K + 1
      ∧ ∀ t, t < seq.length - K + 1 →
          ((iterateDirect e seq K).2.getD t (⟨0, false⟩, 0)).2 = t
          ∧ ((iterateDirect e seq K).2.getD t (⟨0, false⟩, 0)).1.value
            = windowVal e seq t K) := by
  have hguard := nbKmers_guard seq.length K hK1 hK2 hlen
  constructor
  · intro hlt
    have hg : nbKmersI32 seq.length K ≤ 0 := hguard.1.mpr hlt
    constructor
    · unfold iterateDirect
      rw [if_pos hg]
    · unfold buildDirect
      rw [if_pos hg]
  · intro hge
    have hg : ¬(nbKmersI32 seq.length K ≤ 0) := by
      intro hc
      have := hguard.1.mp hc
      omega
    have hiter : iterateDirect e seq K
        = (true, ((⟨(polynom e seq K).1, decide ((polynom e seq K).2 < 0)⟩ : KmerDirect), 0)
            :: iterDirectGo e seq K K (seq.length - K)
                 ⟨(polynom e seq K).1, decide ((polynom e seq K).2 < 0)⟩
                 (polynom e seq K).2 1) := by
      unfold iterateDirect
      rw [if_neg hg]
    have h0 : (⟨(polynom e seq K).1, decide ((polynom e seq K).2 < 0)⟩ : KmerDirect).value
        = windowVal e seq 0 K := by
      show (polynom e seq K).1 = _
      rw [polynom_eq]
    refine ⟨by rw [hiter], ?_, ?_, ?_⟩
    · unfold buildDirect
      rw [if_neg hg]
    · rw [hiter]
      show (_ :: _).length = _
      rw [List.length_cons, iterDirectGo_length]
    · intro t ht
      rw [hiter]
      match t with
      | 0 => exact ⟨rfl, h0⟩
      | t + 1 =>
        have hrec := iterDirectGo_getD e seq K hcodes hK1 (seq.length - K) 0
          ⟨(polynom e seq K).1, decide ((polynom e seq K).2 < 0)⟩
          (polynom e seq K).2 h0 t (by omega)
        simp only [Nat.zero_add] at hrec
        rw [Nat.add_comm 1 t] at hrec
        show ((iterDirectGo e seq K K (seq.length - K)
              ⟨(polynom e seq K).1, decide ((polynom e seq K).2 < 0)⟩
              (polynom e seq K).2 1).getD t (⟨0, false⟩, 0)).2 = t + 1
          ∧ ((iterDirectGo e seq K K (seq.length - K)
              ⟨(polynom e seq K).1, decide ((polynom e seq K).2 < 0)⟩
              (polynom e seq K).2 1).getD t (⟨0, false⟩, 0)).1.value
            = windowVal e seq (t + 1) K
        exact hrec

theorem iterate_build_count_order_witness :
    ((1 ≤ 2) ∧ (2 ≤ 2 ^ 31) ∧ (([65, 67, 71, 84] : List Nat).length < 2 ^ 31))
    ∧ (2 ≤ ([65, 67, 71, 84] : List Nat).length →
        (iterateDirect .ASCII [65, 67, 71, 84] 2).1 = true
        ∧ buildDirect .ASCII [65, 67, 71, 84] 2
          = some ((iterateDirect .ASCII [65, 67, 71, 84] 2).2.map Prod.fst)
        ∧ (iterateDirect .ASCII [65, 67, 71, 84] 2).2.length
          = ([65, 67, 71, 84] : List Nat).length - 2 + 1
        ∧ ∀ t, t < ([65, 67, 71, 84] : List Nat).length - 2 + 1 →
            ((iterateDirect .ASCII [65, 67, 71, 84] 2).2.getD t (⟨0, false⟩, 0)).2 = t
            ∧ ((iterateDirect .ASCII [65, 67, 71, 84] 2).2.getD t (⟨0, false⟩, 0)).1.value
              = windowVal .ASCII [65, 67, 71, 84] t 2) :=
  ⟨⟨by decide, by decide, by decide⟩,
   (iterate_build_count_order .ASCII [65, 67, 71, 84] 2 (by decide) (by decide) (by decide)
     (fun i => convertGet_ASCII_code_lt _ i)).2⟩

/-- Claim C5, counterexample to the claim as stated: a buffer of length 2^31
with K = 1 has len ≥ K, but `int32_t nbKmers = length - _kmerSize + 1` wraps
to -2^31, so iterate and build return false and emit nothing. -/
theorem iterate_count_int32_cx :
    iterateDirect .ASCII (List.replicate (2 ^ 31) 65) 1 = (false, [])
    ∧ buildDirect .ASCII (List.replicate (2 ^ 31) 65) 1 = none
    ∧ ¬((List.replicate (2 ^ 31) (65 : Nat)).length < 1) := by
  have hlen : (List.replicate (2 ^ 31) (65 : Nat)).length = 2 ^ 31 :=
    List.length_replicate _ _
  have hg : nbKmersI32 (List.replicate (2 ^ 31) (65 : Nat)).length 1 ≤ 0 := by
    rw [hlen]
    decide
  refine ⟨?_, ?_, ?_⟩
  · unfold iterateDirect
    rw [if_pos hg]
  · unfold buildDirect
    rw [if_pos hg]
  · rw [hlen]
    norm_num

/-! ## Claim C10: computeNewMinimizer frame property -/

theorem cnmGo_frame (m : Nat) :
    ∀ (i : Nat) (loop : KmerCanonical) (km : KmerMin),
      (cnmGo m i loop km).table0 = km.table0
      ∧ (cnmGo m i loop km).table1 = km.table1
      ∧ (cnmGo m i loop km).choice = km.choice
      ∧ (cnmGo m i loop km).isValid = km.isValid
      ∧ (cnmGo m i loop km).changed = km.changed := by
  intro i
  induction i with
  | zero =>
    intro loop km
    exact ⟨rfl, rfl, rfl, rfl, rfl⟩
  | succ i ih =>
    intro loop km
    have step : cnmGo m (i + 1) loop km
        = cnmGo m i (extractShiftCanonical m loop).2
            (if (extractShiftCanonical m loop).1.value < km.minimizer.value
             then { km with minimizer := (extractShiftCanonical m loop).1,
                            position := (i : Int) }
             else km) := rfl
    rw [step]
    by_cases h : (extractShiftCanonical m loop).1.value < km.minimizer.value
    · rw [if_pos h]
      exact ih (extractShiftCanonical m loop).2
        { km with minimizer := (extractShiftCanonical m loop).1, position := (i : Int) }
    · rw [if_neg h]
      exact ih (extractShiftCanonical m loop).2 km

/-- Claim C10: computeNewMinimizer, which peels the mmers off a local copy
of the kmer, never modifies the forward value, the reverse complement value,
the strand choice or the valid flag of the kmer it is given: after it
returns, only the minimizer, position and changed fields may differ. -/
theorem computeNewMinimizer_frame (K m : Nat) (km : KmerMin) :
    (computeNewMinimizer K m km).table0 = km.table0
    ∧ (computeNewMinimizer K m km).table1 = km.table1
    ∧ (computeNewMinimizer K m km).choice = km.choice
    ∧ (computeNewMinimizer K m km).isValid = km.isValid := by
  have h := cnmGo_frame m (K - m + 1) km.toKmerCanonical
    { km with
        minimizer := canonical1 (2 ^ (2 * m) - 1),
        position := -1,
        changed := true }
  exact ⟨h.1, h.2.1, h.2.2.1, h.2.2.2.1⟩

/-! ## Claim C1: minimizer window invariant -/

theorem mmerLut_le (m x : Nat) (hx : x < 2 ^ (2 * m)) :
    mmerLut m x ≤ 2 ^ (2 * m) - 1 := by
  rw [mmerLut_eq]
  split_ifs with h
  · have h1 : revcompNat x m < 4 ^ m := revcompNat_lt m x
    have h2 : (2 : Nat) ^ (2 * m) = 4 ^ m := two_pow_two_mul m
    have h3 := Nat.min_le_left x (revcompNat x m)
    omega
  · omega

theorem lutShiftVal_le (m f i : Nat) : lutShiftVal m f i ≤ 2 ^ (2 * m) - 1 := by
  unfold lutShiftVal
  apply mmerLut_le
  rw [Nat.and_pow_two_sub_one_eq_mod]
  exact Nat.mod_lt _ (Nat.pos_pow_of_pos _ (by norm_num))

theorem winMinAux_le_sentinel (m f : Nat) :
    ∀ j, winMinAux m f j ≤ 2 ^ (2 * m) - 1 := by
  intro j
  induction j with
  | zero => exact Nat.le_refl _
  | succ j ih =>
    show min (winMinAux m f j) (lutShiftVal m f j) ≤ _
    have := Nat.min_le_left (winMinAux m f j) (lutShiftVal m f j)
    omega

theorem winMinAux_le_val (m f : Nat) :
    ∀ j i, i < j → winMinAux m f j ≤ lutShiftVal m f i := by
  intro j
  induction j with
  | zero =>
    intro i hi
    omega
  | succ j ih =>
    intro i hi
    show min (winMinAux m f j) (lutShiftVal m f j) ≤ _
    by_cases hij : i = j
    · rw [hij]
      exact Nat.min_le_right _ _
    · have h1 := ih i (by omega)
      have h2 := Nat.min_le_left (winMinAux m f j) (lutShiftVal m f j)
      omega

theorem winMinAux_mono (m f : Nat) (j : Nat) :
    winMinAux m f (j + 1) ≤ winMinAux m f j :=
  Nat.min_le_left _ _

theorem extractCanonical_value (m : Nat) (k : KmerCanonical) :
    (extractCanonical m k).value = mmerLut m (k.table0 &&& (2 ^ (2 * m) - 1)) :=
  canonical1_value _

theorem extractCanonical_value_shift0 (m : Nat) (k : KmerCanonical) :
    (extractCanonical m k).value = lutShiftVal m k.table0 0 := by
  rw [extractCanonical_value]
  unfold lutShiftVal
  rw [Nat.shiftRight_zero]

theorem lutShiftVal_eq (m f i : Nat) :
    lutShiftVal m f i = mmerLut m ((f / 4 ^ i) % 4 ^ m) := by
  unfold lutShiftVal
  rw [Nat.shiftRight_eq_div_pow, Nat.and_pow_two_sub_one_eq_mod, two_pow_two_mul,
    two_pow_two_mul]

theorem lutShiftVal_slide (K m : Nat) (f c : Nat) (hf : f < 4 ^ K) (hc : c < 4)
    (s : Nat) (hs : 1 ≤ s) (hsK : s + m ≤ K) :
    lutShiftVal m ((f * 4 + c) % 4 ^ K) s = lutShiftVal m f (s - 1) := by
  rw [lutShiftVal_eq, lutShiftVal_eq]
  congr 1
  have hKsplit : (4 : Nat) ^ K = 4 ^ s * 4 ^ (K - s) := by
    rw [← pow_add]
    congr 1
    omega
  rw [hKsplit, Nat.mod_mul_right_div_self]
  rw [Nat.mod_mod_of_dvd _ (pow_dvd_pow 4 (by omega : m ≤ K - s))]
  congr 1
  have hssplit : (4 : Nat) ^ s = 4 * 4 ^ (s - 1) := by
    rw [show (4 : Nat) * 4 ^ (s - 1) = 4 ^ (s - 1 + 1) from by ring]
    congr 1
    omega
  rw [hssplit, ← Nat.div_div_eq_div_mul]
  congr 1
  omega

theorem winMinAux_slide (K m : Nat) (f c : Nat) (hf : f < 4 ^ K) (hc : c < 4)
    (hm1 : m ≤ K) :
    ∀ j, j ≤ K - m →
      winMinAux m ((f * 4 + c) % 4 ^ K) (j + 1)
        = min (winMinAux m f j) (lutShiftVal m ((f * 4 + c) % 4 ^ K) 0) := by
  intro j
  induction j with
  | zero =>
    intro _
    rfl
  | succ j ih =>
    intro hj
    show min (winMinAux m ((f * 4 + c) % 4 ^ K) (j + 1))
        (lutShiftVal m ((f * 4 + c) % 4 ^ K) (j + 1)) = _
    rw [ih (by omega), lutShiftVal_slide K m f c hf hc (j + 1) (by omega) (by omega)]
    show min (min (winMinAux m f j) _) (lutShiftVal m f (j + 1 - 1)) = _
    rw [show j + 1 - 1 = j from by omega, Nat.min_right_comm]
    rfl

theorem cnmGo_spec (m nb : Nat) (f : Nat) :
    ∀ (i : Nat) (loop : KmerCanonical) (km : KmerMin),
      i ≤ nb →
      loop.table0 = f >>> (2 * (nb - i)) →
      km.minimizer.value = winMinAux m f (nb - i) →
      (km.position < 0 ↔ winMinAux m f (nb - i) = 2 ^ (2 * m) - 1) →
      ((0 : Int) ≤ km.position →
        ∃ s, s < nb - i ∧ km.position = ((nb - 1 - s : Nat) : Int)
          ∧ lutShiftVal m f s = winMinAux m f (nb - i)
          ∧ ∀ u, u < s → lutShiftVal m f u ≠ winMinAux m f (nb - i)) →
      ((cnmGo m i loop km).minimizer.value = winMinAux m f nb
        ∧ ((cnmGo m i loop km).position < 0 ↔ winMinAux m f nb = 2 ^ (2 * m) - 1)
        ∧ ((0 : Int) ≤ (cnmGo m i loop km).position →
            ∃ s, s < nb ∧ (cnmGo m i loop km).position = ((nb - 1 - s : Nat) : Int)
              ∧ lutShiftVal m f s = winMinAux m f nb
              ∧ ∀ u, u < s → lutShiftVal m f u ≠ winMinAux m f nb)) := by
  intro i
  induction i with
  | zero =>
    intro loop km _ _ hval hiff hptr
    rw [Nat.sub_zero] at hval hiff hptr
    exact ⟨hval, hiff, hptr⟩
  | succ i ih =>
    intro loop km hi hloop hval hiff hptr
    have step : cnmGo m (i + 1) loop km = cnmGo m i (extractShiftCanonical m loop).2
        (if (extractShiftCanonical m loop).1.value < km.minimizer.value
         then { km with minimizer := (extractShiftCanonical m loop).1,
                        position := (i : Int) }
         else km) := rfl
    rw [step]
    have hev : (extractShiftCanonical m loop).1.value
        = lutShiftVal m f (nb - (i + 1)) := by
      show (extractCanonical m loop).value = _
      rw [extractCanonical_value, hloop]
      rfl
    have hloop2 : (extractShiftCanonical m loop).2.table0 = f >>> (2 * (nb - i)) := by
      show loop.table0 >>> 2 = _
      rw [hloop, ← Nat.shiftRight_add]
      congr 1
      omega
    have hnbi : nb - i = (nb - (i + 1)) + 1 := by omega
    have hWdef : winMinAux m f ((nb - (i + 1)) + 1)
        = min (winMinAux m f (nb - (i + 1))) (lutShiftVal m f (nb - (i + 1))) := rfl
    have hsen := winMinAux_le_sentinel m f (nb - (i + 1))
    by_cases hcmp : (extractShiftCanonical m loop).1.value < km.minimizer.value
    · rw [if_pos hcmp]
      rw [hev, hval] at hcmp
      have hWeq : winMinAux m f (nb - i) = lutShiftVal m f (nb - (i + 1)) := by
        rw [hnbi, hWdef]
        exact Nat.min_eq_right (Nat.le_of_lt hcmp)
      refine ih (extractShiftCanonical m loop).2
        { km with minimizer := (extractShiftCanonical m loop).1,
                  position := (i : Int) }
        (by omega) hloop2 ?_ ?_ ?_
      · show (extractShiftCanonical m loop).1.value = _
        rw [hev, hWeq]
      · show ((i : Nat) : Int) < 0 ↔ _
        rw [hWeq]
        constructor
        · intro hc
          exfalso
          omega
        · intro hM
          exfalso
          omega
      · intro _
        refine ⟨nb - (i + 1), by omega, ?_, ?_, ?_⟩
        · show ((i : Nat) : Int) = _
          push_cast
          omega
        · rw [hWeq]
        · intro u hu
          rw [hWeq]
          have h1 := winMinAux_le_val m f (nb - (i + 1)) u hu
          omega
    · rw [if_neg hcmp]
      rw [hev, hval] at hcmp
      have hWeq : winMinAux m f (nb - i) = winMinAux m f (nb - (i + 1)) := by
        rw [hnbi, hWdef]
        exact Nat.min_eq_left (Nat.le_of_not_lt (fun hc => hcmp hc))
      refine ih (extractShiftCanonical m loop).2 km (by omega) hloop2 ?_ ?_ ?_
      · rw [hval, hWeq]
      · rw [hiff, hWeq]
      · intro hpos
        obtain ⟨s, hs1, hs2, hs3, hs4⟩ := hptr hpos
        refine ⟨s, by omega, hs2, ?_, ?_⟩
        · rw [hWeq]
          exact hs3
        · intro u hu
          rw [hWeq]
          exact hs4 u hu

theorem computeNewMinimizer_spec (K m : Nat) (km : KmerMin) :
    ((computeNewMinimizer K m km).minimizer.value
        = winMinAux m km.table0 (K - m + 1))
    ∧ ((computeNewMinimizer K m km).position < 0
        ↔ winMinAux m km.table0 (K - m + 1) = 2 ^ (2 * m) - 1)
    ∧ ((0 : Int) ≤ (computeNewMinimizer K m km).position →
        ∃ s, s < K - m + 1
          ∧ (computeNewMinimizer K m km).position
            = ((K - m + 1 - 1 - s : Nat) : Int)
          ∧ lutShiftVal m km.table0 s = winMinAux m km.table0 (K - m + 1)
          ∧ ∀ u, u < s →
              lutShiftVal m km.table0 u ≠ winMinAux m km.table0 (K - m + 1)) := by
  refine cnmGo_spec m (K - m + 1) km.table0 (K - m + 1) km.toKmerCanonical
    { km with
        minimizer := canonical1 (2 ^ (2 * m) - 1),
        position := -1,
        changed := true }
    (le_refl _) ?_ ?_ ?_ ?_
  · rw [Nat.sub_self]
    rfl
  · rw [Nat.sub_self]
    show (canonical1 (2 ^ (2 * m) - 1)).value = _
    rw [canonical1_value]
    rfl
  · rw [Nat.sub_self]
    constructor
    · intro _
      rfl
    · intro _
      norm_num
  · intro hpos
    exfalso
    have : ¬((0 : Int) ≤ -1) := by norm_num
    exact this hpos

theorem minimizerNext_spec (K m : Nat) (c : Nat) (km : KmerMin) (v : Bool)
    (hm : 1 ≤ m) (hmK : m < K) (hc : c < 4) (hf : km.table0 < 4 ^ K)
    (hval : km.minimizer.value = winMinAux m km.table0 (K - m + 1))
    (hiff : (km.position < 0
      ↔ winMinAux m km.table0 (K - m + 1) = 2 ^ (2 * m) - 1))
    (hptr : (0 : Int) ≤ km.position →
        km.position ≤ ((K - m : Nat) : Int)
        ∧ lutShiftVal m km.table0 ((K - m) - km.position.toNat)
          = km.minimizer.value) :
    (minimizerNext K m c km v).table0 = (km.table0 * 4 + c) % 4 ^ K
    ∧ (minimizerNext K m c km v).table0 < 4 ^ K
    ∧ (minimizerNext K m c km v).minimizer.value
        = winMinAux m ((minimizerNext K m c km v).table0) (K - m + 1)
    ∧ ((minimizerNext K m c km v).position < 0
        ↔ winMinAux m ((minimizerNext K m c km v).table0) (K - m + 1)
          = 2 ^ (2 * m) - 1)
    ∧ ((0 : Int) ≤ (minimizerNext K m c km v).position →
        (minimizerNext K m c km v).position ≤ ((K - m : Nat) : Int)
        ∧ lutShiftVal m ((minimizerNext K m c km v).table0)
            ((K - m) - (minimizerNext K m c km v).position.toNat)
          = (minimizerNext K m c km v).minimizer.value) := by
  have hK1 : 1 ≤ K := by omega
  have hbase : (canonicalNext K c km.toKmerCanonical v).table0
      = (km.table0 * 4 + c) % 4 ^ K :=
    canonicalNext_table0 K c km.toKmerCanonical v hK1 hc hf
  have hficlt : (km.table0 * 4 + c) % 4 ^ K < 4 ^ K :=
    Nat.mod_lt _ (Nat.pos_pow_of_pos _ (by norm_num))
  have hmmer : (extractCanonical m
        { canonicalNext K c km.toKmerCanonical v with isValid := v }).value
      = lutShiftVal m ((km.table0 * 4 + c) % 4 ^ K) 0 := by
    rw [extractCanonical_value_shift0]
    show lutShiftVal m (canonicalNext K c km.toKmerCanonical v).table0 0 = _
    rw [hbase]
  have hW' := winMinAux_slide K m km.table0 c hf hc (by omega) (K - m) (le_refl _)
  have hmono := winMinAux_mono m km.table0 (K - m)
  have hsen := winMinAux_le_sentinel m km.table0 (K - m + 1)
  have step : minimizerNext K m c km v
      = (if (extractCanonical m
              { canonicalNext K c km.toKmerCanonical v with isValid := v }).value
            < km.minimizer.value
         then { km with
                  toKmerCanonical :=
                    { canonicalNext K c km.toKmerCanonical v with isValid := v },
                  minimizer := extractCanonical m
                    { canonicalNext K c km.toKmerCanonical v with isValid := v },
                  position := (((K - m + 1) - 1 : Nat) : Int),
                  changed := true }
         else if km.position - 1 < 0
         then computeNewMinimizer K m
                { km with
                    toKmerCanonical :=
                      { canonicalNext K c km.toKmerCanonical v with isValid := v },
                    position := km.position - 1,
                    changed := false }
         else { km with
                  toKmerCanonical :=
                    { canonicalNext K c km.toKmerCanonical v with isValid := v },
                  position := km.position - 1,
                  changed := false }) := rfl
  rw [step]
  by_cases hcmp : (extractCanonical m
      { canonicalNext K c km.toKmerCanonical v with isValid := v }).value
        < km.minimizer.value
  · rw [if_pos hcmp]
    rw [hmmer, hval] at hcmp
    have hA : winMinAux m ((km.table0 * 4 + c) % 4 ^ K) (K - m + 1)
        = lutShiftVal m ((km.table0 * 4 + c) % 4 ^ K) 0 := by
      rw [hW']
      exact Nat.min_eq_right (by omega)
    refine ⟨hbase, ?_, ?_, ?_, ?_⟩
    · show (canonicalNext K c km.toKmerCanonical v).table0 < 4 ^ K
      rw [hbase]
      exact hficlt
    · show (extractCanonical m
          { canonicalNext K c km.toKmerCanonical v with isValid := v }).value
        = winMinAux m ((canonicalNext K c km.toKmerCanonical v).table0) (K - m + 1)
      rw [hmmer, hbase, hA]
    · show (((K - m + 1 - 1 : Nat) : Int) < 0)
        ↔ winMinAux m ((canonicalNext K c km.toKmerCanonical v).table0) (K - m + 1)
          = 2 ^ (2 * m) - 1
      rw [hbase, hA]
      constructor
      · intro hcon
        exfalso
        omega
      · intro hM
        exfalso
        omega
    · intro _
      constructor
      · show ((K - m + 1 - 1 : Nat) : Int) ≤ ((K - m : Nat) : Int)
        push_cast
        omega
      · show lutShiftVal m ((canonicalNext K c km.toKmerCanonical v).table0)
            ((K - m) - (((K - m + 1 - 1 : Nat) : Int)).toNat)
          = (extractCanonical m
              { canonicalNext K c km.toKmerCanonical v with isValid := v }).value
        have htn : (((K - m + 1 - 1 : Nat) : Int)).toNat = K - m := by omega
        rw [htn, Nat.sub_self, hbase, hmmer]
  · rw [if_neg hcmp]
    rw [hmmer, hval] at hcmp
    by_cases hpos : km.position - 1 < 0
    · rw [if_pos hpos]
      have hframe := computeNewMinimizer_frame K m
        { km with
            toKmerCanonical :=
              { canonicalNext K c km.toKmerCanonical v with isValid := v },
            position := km.position - 1,
            changed := false }
      have hspec := computeNewMinimizer_spec K m
        { km with
            toKmerCanonical :=
              { canonicalNext K c km.toKmerCanonical v with isValid := v },
            position := km.position - 1,
            changed := false }
      have ht0 : ({ km with
            toKmerCanonical :=
              { canonicalNext K c km.toKmerCanonical v with isValid := v },
            position := km.position - 1,
            changed := false } : KmerMin).table0
          = (km.table0 * 4 + c) % 4 ^ K := hbase
      rw [ht0] at hspec
      have ht0r := hframe.1
      rw [ht0] at ht0r
      refine ⟨ht0r, ?_, ?_, ?_, ?_⟩
      · rw [ht0r]
        exact hficlt
      · rw [ht0r]
        exact hspec.1
      · rw [ht0r]
        exact hspec.2.1
      · intro hge
        rw [ht0r]
        obtain ⟨s, hs1, hs2, hs3, hs4⟩ := hspec.2.2 hge
        constructor
        · rw [hs2]
          push_cast
          omega
        · have htn : ((computeNewMinimizer K m
              { km with
                  toKmerCanonical :=
                    { canonicalNext K c km.toKmerCanonical v with isValid := v },
                  position := km.position - 1,
                  changed := false }).position).toNat = K - m - s := by
            rw [hs2]
            omega
          rw [htn, show (K - m) - (K - m - s) = s from by omega, hs3, hspec.1]
    · rw [if_neg hpos]
      have hge0 : (0 : Int) ≤ km.position := by omega
      obtain ⟨hb, hp⟩ := hptr hge0
      have hposn : 1 ≤ km.position.toNat := by omega
      have hbn : km.position.toNat ≤ K - m := by omega
      have hsold : (K - m) - km.position.toNat ≤ K - m - 1 := by omega
      have hne : winMinAux m km.table0 (K - m + 1) ≠ 2 ^ (2 * m) - 1 := by
        intro hM
        have := hiff.mpr hM
        omega
      have hlev := winMinAux_le_val m km.table0 (K - m)
        ((K - m) - km.position.toNat) (by omega)
      rw [hp, hval] at hlev
      have hWfix : winMinAux m km.table0 (K - m)
          = winMinAux m km.table0 (K - m + 1) := by omega
      have hA : winMinAux m ((km.table0 * 4 + c) % 4 ^ K) (K - m + 1)
          = winMinAux m km.table0 (K - m + 1) := by
        rw [hW', hWfix]
        exact Nat.min_eq_left (by omega)
      refine ⟨hbase, ?_, ?_, ?_, ?_⟩
      · show (canonicalNext K c km.toKmerCanonical v).table0 < 4 ^ K
        rw [hbase]
        exact hficlt
      · show km.minimizer.value
          = winMinAux m ((canonicalNext K c km.toKmerCanonical v).table0) (K - m + 1)
        rw [hbase, hA, hval]
      · show (km.position - 1 < 0)
          ↔ winMinAux m ((canonicalNext K c km.toKmerCanonical v).table0) (K - m + 1)
            = 2 ^ (2 * m) - 1
        rw [hbase, hA]
        constructor
        · intro hcon
          exfalso
          omega
        · intro hM
          exact absurd hM hne
      · intro _
        constructor
        · show km.position - 1 ≤ ((K - m : Nat) : Int)
          omega
        · show lutShiftVal m ((canonicalNext K c km.toKmerCanonical v).table0)
              ((K - m) - (km.position - 1).toNat) = km.minimizer.value
          have htn : (km.position - 1).toNat = km.position.toNat - 1 := by omega
          rw [hbase, htn,
            show (K - m) - (km.position.toNat - 1)
              = ((K - m) - km.position.toNat) + 1 from by omega,
            lutShiftVal_slide K m km.table0 c hf hc
              ((K - m) - km.position.toNat + 1) (by omega) (by omega),
            show (K - m) - km.position.toNat + 1 - 1
              = (K - m) - km.position.toNat from by omega]
          exact hp

theorem minimizerFirst_spec (e : Encoding) (seq : List Nat) (K m : Nat)
    (hcodes : ∀ i, (convertGet e seq i).1 < 4) :
    (minimizerFirst e seq K m).1.table0 < 4 ^ K
    ∧ (minimizerFirst e seq K m).1.minimizer.value
        = winMinAux m ((minimizerFirst e seq K m).1.table0) (K - m + 1)
    ∧ ((minimizerFirst e seq K m).1.position < 0
        ↔ winMinAux m ((minimizerFirst e seq K m).1.table0) (K - m + 1)
          = 2 ^ (2 * m) - 1)
    ∧ ((0 : Int) ≤ (minimizerFirst e seq K m).1.position →
        ∃ s, s < K - m + 1
          ∧ (minimizerFirst e seq K m).1.position = ((K - m + 1 - 1 - s : Nat) : Int)
          ∧ lutShiftVal m ((minimizerFirst e seq K m).1.table0) s
            = winMinAux m ((minimizerFirst e seq K m).1.table0) (K - m + 1)
          ∧ ∀ u, u < s →
              lutShiftVal m ((minimizerFirst e seq K m).1.table0) u
                ≠ winMinAux m ((minimizerFirst e seq K m).1.table0) (K - m + 1)) := by
  have hframe := computeNewMinimizer_frame K m
    { toKmerCanonical := (canonicalFirst e seq K).1, minimizer := canonical1 0,
      position := 0, changed := false }
  have hspec := computeNewMinimizer_spec K m
    { toKmerCanonical := (canonicalFirst e seq K).1, minimizer := canonical1 0,
      position := 0, changed := false }
  have hbase := canonicalFirst_inv e seq K hcodes
  have ht0 : (minimizerFirst e seq K m).1.table0 = (canonicalFirst e seq K).1.table0 :=
    hframe.1
  refine ⟨?_, ?_, ?_, ?_⟩
  · rw [ht0]
    exact hbase.1
  · rw [ht0]
    exact hspec.1
  · rw [ht0]
    exact hspec.2.1
  · intro hge
    rw [ht0]
    exact hspec.2.2 hge

theorem minimizerFold_inv (e : Encoding) (seq : List Nat) (K m : Nat)
    (hm : 1 ≤ m) (hmK : m < K) :
    ∀ (steps : List (Nat × Bool)) (km : KmerMin),
      (∀ s ∈ steps, s.1 < 4) →
      km.table0 < 4 ^ K →
      km.minimizer.value = winMinAux m km.table0 (K - m + 1) →
      (km.position < 0 ↔ winMinAux m km.table0 (K - m + 1) = 2 ^ (2 * m) - 1) →
      ((0 : Int) ≤ km.position →
        km.position ≤ ((K - m : Nat) : Int)
        ∧ lutShiftVal m km.table0 ((K - m) - km.position.toNat)
          = km.minimizer.value) →
      ((steps.foldl (fun k s => minimizerNext K m s.1 k s.2) km).table0 < 4 ^ K
       ∧ (steps.foldl (fun k s => minimizerNext K m s.1 k s.2) km).minimizer.value
           = winMinAux m ((steps.foldl (fun k s => minimizerNext K m s.1 k s.2) km).table0)
             (K - m + 1)
       ∧ ((steps.foldl (fun k s => minimizerNext K m s.1 k s.2) km).position < 0
           ↔ winMinAux m ((steps.foldl (fun k s => minimizerNext K m s.1 k s.2) km).table0)
               (K - m + 1) = 2 ^ (2 * m) - 1)
       ∧ ((0 : Int) ≤ (steps.foldl (fun k s => minimizerNext K m s.1 k s.2) km).position →
           (steps.foldl (fun k s => minimizerNext K m s.1 k s.2) km).position
             ≤ ((K - m : Nat) : Int)
           ∧ lutShiftVal m ((steps.foldl (fun k s => minimizerNext K m s.1 k s.2) km).table0)
               ((K - m) - ((steps.foldl (fun k s => minimizerNext K m s.1 k s.2) km).position).toNat)
             = (steps.foldl (fun k s => minimizerNext K m s.1 k s.2) km).minimizer.value)) := by
  intro steps
  induction steps with
  | nil =>
    intro km _ h0 h1 h2 h3
    exact ⟨h0, h1, h2, h3⟩
  | cons s ss ih =>
    intro km hs h0 h1 h2 h3
    simp only [List.foldl_cons]
    have hnext := minimizerNext_spec K m s.1 km s.2 hm hmK (hs s (by simp)) h0 h1 h2 h3
    exact ih (minimizerNext K m s.1 km s.2) (fun t ht => hs t (by simp [ht]))
      hnext.2.1 hnext.2.2.1 hnext.2.2.2.1 hnext.2.2.2.2

/-- Claim C1, amended.  Index the nbMinimizers = K-m+1 mmers of a window by
their shift i (mmer i is `mmerLut[(forward >> 2i) & mmerMask]`, so i = 0 is
the rightmost mmer of the kmer string and i = K-m the leftmost).  For every
kmer produced by ModelMinimizer::first or any sequence of next steps:
the minimizer value equals the minimum over i of the window mmers (with the
sentinel mmerMask as the value of an empty competition); the position is
negative exactly when no mmer beats the sentinel; whenever the position is
nonnegative it points at a window mmer achieving that minimum, namely the
one at shift (K-m) - position; and directly after first (or any
computeNewMinimizer), the position equals (K-m) - s where s is the least
shift achieving the minimum - i.e. on ties the mmer closest to the right
end of the kmer wins, not the claimed largest shift index. -/
theorem minimizer_window_invariant (e : Encoding) (seq : List Nat) (K m : Nat)
    (steps : List (Nat × Bool)) (hm : 1 ≤ m) (hmK : m < K)
    (hcodes : ∀ i, (convertGet e seq i).1 < 4)
    (hsteps : ∀ s ∈ steps, s.1 < 4) :
    ((minimizerChain e seq K m steps).minimizer.value
        = winMinAux m ((minimizerChain e seq K m steps).table0) (K - m + 1))
    ∧ ((minimizerChain e seq K m steps).position < 0
        ↔ winMinAux m ((minimizerChain e seq K m steps).table0) (K - m + 1)
          = 2 ^ (2 * m) - 1)
    ∧ ((0 : Int) ≤ (minimizerChain e seq K m steps).position →
        (minimizerChain e seq K m steps).position ≤ ((K - m : Nat) : Int)
        ∧ lutShiftVal m ((minimizerChain e seq K m steps).table0)
            ((K - m) - ((minimizerChain e seq K m steps).position).toNat)
          = (minimizerChain e seq K m steps).minimizer.value)
    ∧ (steps = [] → (0 : Int) ≤ (minimizerChain e seq K m steps).position →
        ∃ s, s ≤ K - m
          ∧ (minimizerChain e seq K m steps).position = ((K - m - s : Nat) : Int)
          ∧ lutShiftVal m ((minimizerChain e seq K m steps).table0) s
            = (minimizerChain e seq K m steps).minimizer.value
          ∧ ∀ u, u < s →
              lutShiftVal m ((minimizerChain e seq K m steps).table0) u
                ≠ (minimizerChain e seq K m steps).minimizer.value) := by
  have hfirst := minimizerFirst_spec e seq K m hcodes
  have hptr0 : (0 : Int) ≤ (minimizerFirst e seq K m).1.position →
      (minimizerFirst e seq K m).1.position ≤ ((K - m : Nat) : Int)
      ∧ lutShiftVal m ((minimizerFirst e seq K m).1.table0)
          ((K - m) - ((minimizerFirst e seq K m).1.position).toNat)
        = (minimizerFirst e seq K m).1.minimizer.value := by
    intro hge
    obtain ⟨s, hs1, hs2, hs3, hs4⟩ := hfirst.2.2.2 hge
    constructor
    · rw [hs2]
      push_cast
      omega
    · have htn : ((minimizerFirst e seq K m).1.position).toNat = K - m + 1 - 1 - s := by
        rw [hs2]
        omega
      rw [htn, show (K - m) - (K - m + 1 - 1 - s) = s from by omega, hs3,
        hfirst.2.1]
  have hchain := minimizerFold_inv e seq K m hm hmK steps
    (minimizerFirst e seq K m).1 hsteps hfirst.1 hfirst.2.1 hfirst.2.2.1 hptr0
  refine ⟨hchain.2.1, hchain.2.2.1, hchain.2.2.2, ?_⟩
  · intro hnil hge
    subst hnil
    simp only [minimizerChain, List.foldl_nil] at hge ⊢
    obtain ⟨s, hs1, hs2, hs3, hs4⟩ := hfirst.2.2.2 hge
    refine ⟨s, by omega, ?_, ?_, ?_⟩
    · rw [hs2]
      omega
    · rw [hs3, hfirst.2.1]
    · intro u hu
      rw [hfirst.2.1]
      exact hs4 u hu

/-- Claim C1, counterexample to the claim as stated: K = 5, m = 3, ASCII
input "GCCCC" (nbMinimizers = 3).  The window lut values at shifts 0, 1, 2
are 21, 21, 53; the minimum 21 is achieved at shifts 0 and 1, so the largest
shift index achieving the minimum is 1, yet the code stores position = 2
(it records indices counted from the left end, with ties going to the
rightmost mmer). -/
theorem minimizer_position_cx :
    (minimizerFirst .ASCII [71, 67, 67, 67, 67] 5 3).1.minimizer.value = 21
    ∧ lutShiftVal 3 ((minimizerFirst .ASCII [71, 67, 67, 67, 67] 5 3).1.table0) 0 = 21
    ∧ lutShiftVal 3 ((minimizerFirst .ASCII [71, 67, 67, 67, 67] 5 3).1.table0) 1 = 21
    ∧ lutShiftVal 3 ((minimizerFirst .ASCII [71, 67, 67, 67, 67] 5 3).1.table0) 2 ≠ 21
    ∧ (minimizerFirst .ASCII [71, 67, 67, 67, 67] 5 3).1.position = 2
    ∧ ((2 : Int) ≠ 1) := by
  decide

theorem minimizer_window_invariant_witness :
    ((1 ≤ 3) ∧ (3 < 5))
    ∧ (((minimizerChain .ASCII [71, 67, 67, 67, 67] 5 3 [(0, true)]).minimizer.value
        = winMinAux 3 ((minimizerChain .ASCII [71, 67, 67, 67, 67] 5 3 [(0, true)]).table0)
            (5 - 3 + 1))
      ∧ (((minimizerChain .ASCII [71, 67, 67, 67, 67] 5 3 [(0, true)]).position < 0
          ↔ winMinAux 3 ((minimizerChain .ASCII [71, 67, 67, 67, 67] 5 3 [(0, true)]).table0)
              (5 - 3 + 1) = 2 ^ (2 * 3) - 1))
      ∧ ((0 : Int) ≤ (minimizerChain .ASCII [71, 67, 67, 67, 67] 5 3 [(0, true)]).position →
          (minimizerChain .ASCII [71, 67, 67, 67, 67] 5 3 [(0, true)]).position
            ≤ ((5 - 3 : Nat) : Int)
          ∧ lutShiftVal 3 ((minimizerChain .ASCII [71, 67, 67, 67, 67] 5 3 [(0, true)]).table0)
              ((5 - 3) - ((minimizerChain .ASCII [71, 67, 67, 67, 67] 5 3 [(0, true)]).position).toNat)
            = (minimizerChain .ASCII [71, 67, 67, 67, 67] 5 3 [(0, true)]).minimizer.value)
      ∧ ([((0 : Nat), true)] = [] →
          (0 : Int) ≤ (minimizerChain .ASCII [71, 67, 67, 67, 67] 5 3 [(0, true)]).position →
          ∃ s, s ≤ 5 - 3
            ∧ (minimizerChain .ASCII [71, 67, 67, 67, 67] 5 3 [(0, true)]).position
              = ((5 - 3 - s : Nat) : Int)
            ∧ lutShiftVal 3 ((minimizerChain .ASCII [71, 67, 67, 67, 67] 5 3 [(0, true)]).table0) s
              = (minimizerChain .ASCII [71, 67, 67, 67, 67] 5 3 [(0, true)]).minimizer.value
            ∧ ∀ u, u < s →
                lutShiftVal 3 ((minimizerChain .ASCII [71, 67, 67, 67, 67] 5 3 [(0, true)]).table0) u
                  ≠ (minimizerChain .ASCII [71, 67, 67, 67, 67] 5 3 [(0, true)]).minimizer.value)) :=
  ⟨⟨by decide, by decide⟩,
   minimizer_window_invariant .ASCII [71, 67, 67, 67, 67] 5 3 [(0, true)]
     (by decide) (by decide) (fun i => convertGet_ASCII_code_lt _ i) (by decide)⟩

/-! ## Claim C2: SuperKmer save/load -/

theorem canonicalNext_table1 (K c : Nat) (k : KmerCanonical) (v : Bool)
    (hK : 1 ≤ K) :
    (canonicalNext K c k v).table1
      = (k.table1 / 4 + (c ^^^ 2) * 4 ^ (K - 1)) % 4 ^ K := by
  obtain ⟨k', rfl⟩ : ∃ k', K = k' + 1 := ⟨K - 1, by omega⟩
  show ((k.table1 >>> 2) + revcompTable (k' + 1) c) &&& (2 ^ (2 * (k' + 1)) - 1) = _
  unfold revcompTable compNT
  rw [Nat.add_sub_cancel, Nat.and_pow_two_sub_one_eq_mod, two_pow_two_mul (k' + 1),
    Nat.shiftLeft_eq, two_pow_two_mul k', Nat.shiftRight_eq_div_pow]

theorem foldl_poly_init (ns : List Nat) :
    ∀ a : Nat, ns.foldl (fun x c => x * 4 + c) a
      = a * 4 ^ ns.length + ns.foldl (fun x c => x * 4 + c) 0 := by
  induction ns with
  | nil =>
    intro a
    simp
  | cons c cs ih =>
    intro a
    show cs.foldl (fun x c => x * 4 + c) (a * 4 + c)
        = a * 4 ^ (cs.length + 1) + cs.foldl (fun x c => x * 4 + c) (0 * 4 + c)
    rw [ih (a * 4 + c), ih (0 * 4 + c)]
    ring

theorem foldl_poly_lt (ns : List Nat) (hns : ∀ c ∈ ns, c < 4) :
    ns.foldl (fun x c => x * 4 + c) 0 < 4 ^ ns.length := by
  induction ns with
  | nil => simp
  | cons c cs ih =>
    show cs.foldl (fun x c => x * 4 + c) (0 * 4 + c) < 4 ^ (cs.length + 1)
    rw [foldl_poly_init]
    have h1 : c < 4 := hns c (by simp)
    have h2 := ih (fun t ht => hns t (by simp [ht]))
    have h3 : (4 : Nat) ^ (cs.length + 1) = 4 * 4 ^ cs.length := by ring
    have h4 : (0 * 4 + c) * 4 ^ cs.length ≤ 3 * 4 ^ cs.length :=
      Nat.mul_le_mul_right _ (by omega)
    omega

theorem foldl_poly_digit (ns : List Nat) :
    ∀ j, (∀ c ∈ ns, c < 4) → j < ns.length →
      (ns.foldl (fun x c => x * 4 + c) 0) / 4 ^ (ns.length - 1 - j) % 4
        = ns.getD j 0 := by
  induction ns with
  | nil =>
    intro j _ hj
    simp at hj
  | cons c cs ih =>
    intro j hns hj
    have hc : c < 4 := hns c (by simp)
    have hcs : ∀ t ∈ cs, t < 4 := fun t ht => hns t (by simp [ht])
    have hP := foldl_poly_lt cs hcs
    have hstep : (c :: cs).foldl (fun x c => x * 4 + c) 0
        = c * 4 ^ cs.length + cs.foldl (fun x c => x * 4 + c) 0 := by
      show cs.foldl (fun x c => x * 4 + c) (0 * 4 + c) = _
      rw [foldl_poly_init]
      ring
    rw [hstep]
    match j with
    | 0 =>
      show (c * 4 ^ cs.length + cs.foldl (fun x c => x * 4 + c) 0)
          / 4 ^ (cs.length + 1 - 1 - 0) % 4 = c
      rw [show cs.length + 1 - 1 - 0 = cs.length from by omega]
      rw [mul_comm c (4 ^ cs.length), Nat.mul_add_div (Nat.pos_pow_of_pos _ (by norm_num)),
        Nat.div_eq_of_lt hP]
      omega
    | j + 1 =>
      show (c * 4 ^ cs.length + cs.foldl (fun x c => x * 4 + c) 0)
          / 4 ^ (cs.length + 1 - 1 - (j + 1)) % 4 = cs.getD j 0
      have hjcs : j < cs.length := by
        simp at hj
        omega
      have hd : cs.length + 1 - 1 - (j + 1) = cs.length - 1 - j := by omega
      rw [hd]
      have hsplit : c * 4 ^ cs.length
          = 4 ^ (cs.length - 1 - j) * (c * 4 ^ (j + 1)) := by
        rw [← mul_assoc, mul_comm (4 ^ (cs.length - 1 - j)) c, mul_assoc, ← pow_add]
        congr 2
        omega
      rw [hsplit, Nat.mul_add_div (Nat.pos_pow_of_pos _ (by norm_num))]
      have hdvd : (4 : Nat) ∣ c * 4 ^ (j + 1) := ⟨c * 4 ^ j, by ring⟩
      have hihj := ih j hcs hjcs
      omega

theorem canonicalRun_length (K : Nat) :
    ∀ (ns : List Nat) (k : KmerCanonical),
      (canonicalRun K k ns).length = ns.length + 1 := by
  intro ns
  induction ns with
  | nil => intro k; rfl
  | cons c cs ih =>
    intro k
    show (canonicalRun K (canonicalNext K c k true) cs).length + 1 = cs.length + 1 + 1
    rw [ih]

theorem canonicalRun_headD (K : Nat) (ns : List Nat) (k d : KmerCanonical) :
    (canonicalRun K k ns).headD d = k := by
  cases ns with
  | nil => rfl
  | cons c cs => rfl

theorem canonicalRun_drop_one (K : Nat) (c : Nat) (cs : List Nat) (k : KmerCanonical) :
    (canonicalRun K k (c :: cs)).drop 1 = canonicalRun K (canonicalNext K c k true) cs := rfl

theorem canonicalRun_inv (K : Nat) (hK : 1 ≤ K) :
    ∀ (ns : List Nat) (k : KmerCanonical),
      (∀ c ∈ ns, c < 4) → k.table0 < 4 ^ K → k.table1 = revcompNat k.table0 K →
      ∀ kk ∈ canonicalRun K k ns, kk.table0 < 4 ^ K ∧ kk.table1 = revcompNat kk.table0 K := by
  intro ns
  induction ns with
  | nil =>
    intro k _ h0 h1 kk hkk
    have : kk = k := by
      simp [canonicalRun] at hkk
      exact hkk
    rw [this]
    exact ⟨h0, h1⟩
  | cons c cs ih =>
    intro k hns h0 h1 kk hkk
    rcases List.mem_cons.mp hkk with hh | ht
    · rw [hh]
      exact ⟨h0, h1⟩
    · have hnext := canonicalNext_inv K c k true hK (hns c (by simp)) h0 h1
      exact ih (canonicalNext K c k true) (fun t htt => hns t (by simp [htt]))
        hnext.1 hnext.2 kk ht

theorem runFoldLow (B K : Nat) (hK : 1 ≤ K) :
    ∀ (ns : List Nat) (k : KmerCanonical) (a : Nat),
      k.table0 < 4 ^ K → (∀ c ∈ ns, c < 4) →
      4 ^ (ns.length + 1) * (a + 1) ≤ 2 ^ B →
      (canonicalRun K k ns).foldl
          (fun acc kk => ((acc <<< 2) % 2 ^ B) ||| (kk.table0 &&& 3)) a
        = a * 4 ^ (ns.length + 1) + (k.table0 % 4) * 4 ^ ns.length
          + ns.foldl (fun x c => x * 4 + c) 0 := by
  intro ns
  induction ns with
  | nil =>
    intro k a hk hns hbound
    norm_num at hbound
    show ((a <<< 2) % 2 ^ B) ||| (k.table0 &&& 3) = _
    rw [Nat.shiftLeft_eq, show a * 2 ^ 2 = a * 4 from by norm_num,
      Nat.mod_eq_of_lt (by omega),
      show (3 : Nat) = 2 ^ 2 - 1 from by norm_num, Nat.and_pow_two_sub_one_eq_mod,
      show (2 : Nat) ^ 2 = 4 from by norm_num,
      lor_eq_add_of_dvd ⟨a, by ring⟩ (Nat.mod_lt _ (by norm_num))]
    show a * 4 + k.table0 % 4 = a * 4 ^ (0 + 1) + k.table0 % 4 * 4 ^ 0 + 0
    ring
  | cons c cs ih =>
    intro k a hk hns hbound
    simp only [List.length_cons] at hbound
    have hc : c < 4 := hns c (by simp)
    have hcs : ∀ t ∈ cs, t < 4 := fun t ht => hns t (by simp [ht])
    have hm4 : k.table0 % 4 < 4 := Nat.mod_lt _ (by norm_num)
    have hp4 : (4 : Nat) ≤ 4 ^ (cs.length + 1 + 1) := by
      calc (4 : Nat) = 4 ^ 1 := by norm_num
      _ ≤ 4 ^ (cs.length + 1 + 1) := Nat.pow_le_pow_right (by norm_num) (by omega)
    have hmul : 4 * (a + 1) ≤ 4 ^ (cs.length + 1 + 1) * (a + 1) :=
      Nat.mul_le_mul_right _ hp4
    show (canonicalRun K (canonicalNext K c k true) cs).foldl
        (fun acc kk => ((acc <<< 2) % 2 ^ B) ||| (kk.table0 &&& 3))
        (((a <<< 2) % 2 ^ B) ||| (k.table0 &&& 3)) = _
    have hstep : ((a <<< 2) % 2 ^ B) ||| (k.table0 &&& 3) = a * 4 + k.table0 % 4 := by
      rw [Nat.shiftLeft_eq, show a * 2 ^ 2 = a * 4 from by norm_num,
        Nat.mod_eq_of_lt (by omega),
        show (3 : Nat) = 2 ^ 2 - 1 from by norm_num, Nat.and_pow_two_sub_one_eq_mod,
        show (2 : Nat) ^ 2 = 4 from by norm_num,
        lor_eq_add_of_dvd ⟨a, by ring⟩ (Nat.mod_lt _ (by norm_num))]
    rw [hstep]
    have ht0 := canonicalNext_table0 K c k true hK hc hk
    have hlt : (canonicalNext K c k true).table0 < 4 ^ K := by
      rw [ht0]
      exact Nat.mod_lt _ (Nat.pos_pow_of_pos _ (by norm_num))
    have hbound2 : 4 ^ (cs.length + 1) * (a * 4 + k.table0 % 4 + 1) ≤ 2 ^ B := by
      have h1 : 4 ^ (cs.length + 1) * (a * 4 + k.table0 % 4 + 1)
          ≤ 4 ^ (cs.length + 1) * (4 * (a + 1)) :=
        Nat.mul_le_mul_left _ (by omega)
      have h2 : 4 ^ (cs.length + 1) * (4 * (a + 1))
          = 4 ^ (cs.length + 1 + 1) * (a + 1) := by ring
      omega
    rw [ih (canonicalNext K c k true) (a * 4 + k.table0 % 4) hlt hcs hbound2]
    have hlow : (canonicalNext K c k true).table0 % 4 = c := by
      rw [ht0, Nat.mod_mod_of_dvd _ (dvd_pow_self 4 (by omega : K ≠ 0))]
      omega
    rw [hlow]
    have hfoldc : (c :: cs).foldl (fun x t => x * 4 + t) 0
        = c * 4 ^ cs.length + cs.foldl (fun x t => x * 4 + t) 0 := by
      show cs.foldl (fun x t => x * 4 + t) (0 * 4 + c) = _
      rw [foldl_poly_init]
      ring
    rw [hfoldc]
    simp only [List.length_cons]
    ring

theorem superKmerSave_eq (B K : Nat) (f0 : Nat) (ns : List Nat) (hK : 1 ≤ K)
    (hf0 : f0 < 4 ^ K) (hns : ∀ c ∈ ns, c < 4) (hL : ns.length + 1 ≤ 255)
    (hW : 2 * ns.length + 8 ≤ B) :
    superKmerSave B (canonicalRun K (canonical2 f0 (revcompNat f0 K)) ns)
      = (2 ^ (B - 8) * (ns.length + 1) + ns.foldl (fun x c => x * 4 + c) 0, f0) := by
  have hlen := canonicalRun_length K ns (canonical2 f0 (revcompNat f0 K))
  have hP := foldl_poly_lt ns hns
  have hPB : ns.foldl (fun x c => x * 4 + c) 0 < 2 ^ (B - 8) := by
    have h1 : (4 : Nat) ^ ns.length = 2 ^ (2 * ns.length) := (two_pow_two_mul _).symm
    have h2 : (2 : Nat) ^ (2 * ns.length) ≤ 2 ^ (B - 8) :=
      Nat.pow_le_pow_right (by norm_num) (by omega)
    omega
  have hcomp : ((canonicalRun K (canonical2 f0 (revcompNat f0 K)) ns).drop 1).foldl
        (fun acc kk => ((acc <<< 2) % 2 ^ B) ||| (kk.table0 &&& 3)) 0
      = ns.foldl (fun x c => x * 4 + c) 0 := by
    cases ns with
    | nil => rfl
    | cons c cs =>
      have hc : c < 4 := hns c (by simp)
      have hcs : ∀ t ∈ cs, t < 4 := fun t ht => hns t (by simp [ht])
      rw [canonicalRun_drop_one]
      have ht0 := canonicalNext_table0 K c (canonical2 f0 (revcompNat f0 K)) true hK hc hf0
      have hlt : (canonicalNext K c (canonical2 f0 (revcompNat f0 K)) true).table0 < 4 ^ K := by
        rw [ht0]
        exact Nat.mod_lt _ (Nat.pos_pow_of_pos _ (by norm_num))
      have hbound : 4 ^ (cs.length + 1) * (0 + 1) ≤ 2 ^ B := by
        have h1 : (4 : Nat) ^ (cs.length + 1) = 2 ^ (2 * (cs.length + 1)) :=
          (two_pow_two_mul _).symm
        have h2 : (2 : Nat) ^ (2 * (cs.length + 1)) ≤ 2 ^ B := by
          apply Nat.pow_le_pow_right (by norm_num)
          simp only [List.length_cons] at hW
          omega
        omega
      rw [runFoldLow B K hK cs (canonicalNext K c (canonical2 f0 (revcompNat f0 K)) true)
        0 hlt hcs hbound]
      have hlow : (canonicalNext K c (canonical2 f0 (revcompNat f0 K)) true).table0 % 4 = c := by
        rw [ht0, Nat.mod_mod_of_dvd _ (dvd_pow_self 4 (by omega : K ≠ 0))]
        omega
      rw [hlow]
      have hfold : (c :: cs).foldl (fun x t => x * 4 + t) 0
          = c * 4 ^ cs.length + cs.foldl (fun x t => x * 4 + t) 0 := by
        show cs.foldl (fun x t => x * 4 + t) (0 * 4 + c) = _
        rw [foldl_poly_init]
        ring
      rw [hfold]
      ring
  have hseed : ((canonicalRun K (canonical2 f0 (revcompNat f0 K)) ns).headD
      (canonical1 0)).table0 = f0 := by
    rw [canonicalRun_headD]
    rfl
  show (((canonicalRun K (canonical2 f0 (revcompNat f0 K)) ns).drop 1).foldl
        (fun acc kk => ((acc <<< 2) % 2 ^ B) ||| (kk.table0 &&& 3)) 0
      ||| (((canonicalRun K (canonical2 f0 (revcompNat f0 K)) ns).length <<< (B - 8)) % 2 ^ B),
      ((canonicalRun K (canonical2 f0 (revcompNat f0 K)) ns).headD (canonical1 0)).table0)
    = _
  rw [hcomp, hlen, hseed]
  have hLlt : ns.length + 1 < 2 ^ 8 := by omega
  have hhead : ((ns.length + 1) <<< (B - 8)) % 2 ^ B = (ns.length + 1) * 2 ^ (B - 8) := by
    rw [Nat.shiftLeft_eq]
    apply Nat.mod_eq_of_lt
    calc (ns.length + 1) * 2 ^ (B - 8) < 2 ^ 8 * 2 ^ (B - 8) :=
          (Nat.mul_lt_mul_right (Nat.pos_pow_of_pos _ (by norm_num))).mpr hLlt
    _ = 2 ^ (8 + (B - 8)) := by rw [pow_add]
    _ = 2 ^ B := by congr 1; omega
  rw [hhead, mul_comm (ns.length + 1) (2 ^ (B - 8)), Nat.lor_comm,
    lor_eq_add_of_lt hPB]

theorem superk_digit (B L : Nat) (ns : List Nat) (hns : ∀ c ∈ ns, c < 4)
    (hW : 2 * ns.length + 8 ≤ B) (j : Nat) (hj : j < ns.length) :
    ((2 ^ (B - 8) * L + ns.foldl (fun x c => x * 4 + c) 0)
        >>> (2 * (ns.length - 1 - j))) &&& 3 = ns.getD j 0 := by
  have hs : 2 * (ns.length - 1 - j) + 2 ≤ B - 8 := by omega
  rw [Nat.shiftRight_eq_div_pow,
    show (3 : Nat) = 2 ^ 2 - 1 from by norm_num, Nat.and_pow_two_sub_one_eq_mod,
    show (2 : Nat) ^ 2 = 4 from by norm_num]
  have hsplit : (2 : Nat) ^ (B - 8)
      = 2 ^ (2 * (ns.length - 1 - j)) * 2 ^ (B - 8 - 2 * (ns.length - 1 - j)) := by
    rw [← pow_add]
    congr 1
    omega
  rw [hsplit, mul_assoc, Nat.mul_add_div (Nat.pos_pow_of_pos _ (by norm_num))]
  have hdvd : (4 : Nat) ∣ 2 ^ (B - 8 - 2 * (ns.length - 1 - j)) * L := by
    have h4 : (4 : Nat) = 2 ^ 2 := by norm_num
    exact Dvd.dvd.mul_right (h4 ▸ pow_dvd_pow 2 (by omega)) L
  have hdig := foldl_poly_digit ns j hns hj
  rw [two_pow_two_mul (ns.length - 1 - j)]
  omega

theorem loadStep_temp (B K : Nat) (f c : Nat) (hK : 1 ≤ K) (hKB : 2 * K ≤ B)
    (hc : c < 4) :
    (((f <<< 2) % 2 ^ B) ||| c) &&& (2 ^ (2 * K) - 1) = (f * 4 + c) % 4 ^ K := by
  rw [Nat.shiftLeft_eq, show f * 2 ^ 2 = f * 4 from by norm_num]
  have hdvd4 : (4 : Nat) ∣ (f * 4) % 2 ^ B := by
    have hd2 : (4 : Nat) ∣ 2 ^ B := by
      have h4 : (4 : Nat) = 2 ^ 2 := by norm_num
      exact h4 ▸ pow_dvd_pow 2 (by omega)
    exact (Nat.dvd_mod_iff hd2).mpr ⟨f, by ring⟩
  rw [lor_eq_add_of_dvd hdvd4 hc, Nat.and_pow_two_sub_one_eq_mod]
  have hdvdB : (2 : Nat) ^ (2 * K) ∣ 2 ^ B := pow_dvd_pow 2 (by omega)
  rw [Nat.add_mod, Nat.mod_mod_of_dvd _ hdvdB, ← Nat.add_mod, two_pow_two_mul]

theorem loadStep_rev (B K : Nat) (r c : Nat) (hK : 1 ≤ K) (hKB : 2 * K ≤ B)
    (hc : c < 4) (hr : r < 4 ^ K) :
    ((r >>> 2) ||| (((c ^^^ 2) <<< (2 * (K - 1))) % 2 ^ B)) &&& (2 ^ (2 * K) - 1)
      = (r / 4 + (c ^^^ 2) * 4 ^ (K - 1)) % 4 ^ K := by
  have hx : c ^^^ 2 < 4 := xor2_lt hc
  have hKs : (4 : Nat) ^ K = 4 * 4 ^ (K - 1) := by
    rw [show (4 : Nat) * 4 ^ (K - 1) = 4 ^ (K - 1 + 1) from by ring]
    congr 1
    omega
  have hshl : ((c ^^^ 2) <<< (2 * (K - 1))) % 2 ^ B = (c ^^^ 2) * 4 ^ (K - 1) := by
    rw [Nat.shiftLeft_eq, two_pow_two_mul]
    apply Nat.mod_eq_of_lt
    have h1 : (c ^^^ 2) * 4 ^ (K - 1) < 4 * 4 ^ (K - 1) :=
      (Nat.mul_lt_mul_right (Nat.pos_pow_of_pos _ (by norm_num))).mpr hx
    have h2 : (4 : Nat) * 4 ^ (K - 1) = 4 ^ K := hKs.symm
    have h3 : (4 : Nat) ^ K = 2 ^ (2 * K) := (two_pow_two_mul K).symm
    have h4 : (2 : Nat) ^ (2 * K) ≤ 2 ^ B := Nat.pow_le_pow_right (by norm_num) (by omega)
    omega
  have hdiv : r >>> 2 = r / 4 := by
    rw [Nat.shiftRight_eq_div_pow]
  have hdlt : r / 4 < 4 ^ (K - 1) := by
    have h := hKs
    omega
  have hor : (r / 4) ||| ((c ^^^ 2) * 4 ^ (K - 1)) = r / 4 + (c ^^^ 2) * 4 ^ (K - 1) := by
    rw [Nat.lor_comm, mul_comm (c ^^^ 2) (4 ^ (K - 1)),
      show (4 : Nat) ^ (K - 1) = 2 ^ (2 * (K - 1)) from (two_pow_two_mul _).symm,
      lor_eq_add_of_lt (by rw [two_pow_two_mul]; exact hdlt)]
    ring
  have hsumlt : r / 4 + (c ^^^ 2) * 4 ^ (K - 1) < 4 ^ K := by
    have h1 : (c ^^^ 2) * 4 ^ (K - 1) ≤ 3 * 4 ^ (K - 1) := Nat.mul_le_mul_right _ (by omega)
    omega
  rw [hshl, hdiv, hor, Nat.and_pow_two_sub_one_eq_mod, two_pow_two_mul,
    Nat.mod_eq_of_lt hsumlt]

theorem loadGo_run (B K : Nat) (hK : 1 ≤ K) (hKB : 2 * K ≤ B) (superk : Nat) :
    ∀ (ns : List Nat) (k : KmerCanonical),
      (∀ c ∈ ns, c < 4) →
      k.table0 < 4 ^ K → k.table1 = revcompNat k.table0 K →
      (∀ j, j < ns.length → (superk >>> (2 * (ns.length - 1 - j))) &&& 3 = ns.getD j 0) →
      superKmerLoadGo B K superk (ns.length + 1) (ns.length + 1) k.table0 k.table1
        = (canonicalRun K k ns).map (fun kk => (kk.table1, kk.table0)) := by
  intro ns
  induction ns with
  | nil =>
    intro k _ _ _ _
    rfl
  | cons c cs ih =>
    intro k hns h0 h1 hdig
    have hc : c < 4 := hns c (by simp)
    have hcs : ∀ t ∈ cs, t < 4 := fun t ht => hns t (by simp [ht])
    have hnt : (superk >>> (2 * cs.length)) &&& 3 = c := by
      have h := hdig 0 (by simp)
      have h2 : (c :: cs).length - 1 - 0 = cs.length := by simp
      rw [h2] at h
      simpa using h
    simp only [List.length_cons]
    have step : superKmerLoadGo B K superk (cs.length + 1 + 1) (cs.length + 1 + 1)
          k.table0 k.table1
        = (k.table1, k.table0) ::
          (if cs.length + 1 + 1 < 2 then []
           else
             superKmerLoadGo B K superk (cs.length + 1) (cs.length + 1)
               ((((k.table0 <<< 2) % 2 ^ B)
                   ||| ((superk >>> (2 * cs.length)) &&& 3))
                 &&& (2 ^ (2 * K) - 1))
               (((k.table1 >>> 2)
                   ||| ((compNT ((superk >>> (2 * cs.length)) &&& 3)
                       <<< (2 * (K - 1))) % 2 ^ B))
                 &&& (2 ^ (2 * K) - 1))) := rfl
    rw [step, if_neg (by omega)]
    have htemp : (((k.table0 <<< 2) % 2 ^ B) ||| ((superk >>> (2 * cs.length)) &&& 3))
          &&& (2 ^ (2 * K) - 1)
        = (canonicalNext K c k true).table0 := by
      rw [hnt, loadStep_temp B K k.table0 c hK hKB hc,
        canonicalNext_table0 K c k true hK hc h0]
    have hr1 : k.table1 < 4 ^ K := by
      rw [h1]
      exact revcompNat_lt _ _
    have hrev : ((k.table1 >>> 2)
          ||| ((compNT ((superk >>> (2 * cs.length)) &&& 3)
              <<< (2 * (K - 1))) % 2 ^ B))
          &&& (2 ^ (2 * K) - 1)
        = (canonicalNext K c k true).table1 := by
      rw [hnt]
      show ((k.table1 >>> 2) ||| (((c ^^^ 2) <<< (2 * (K - 1))) % 2 ^ B))
          &&& (2 ^ (2 * K) - 1) = _
      rw [loadStep_rev B K k.table1 c hK hKB hc hr1,
        canonicalNext_table1 K c k true hK]
    rw [htemp, hrev]
    have hinv := canonicalNext_inv K c k true hK hc h0 h1
    have hdig2 : ∀ j, j < cs.length →
        (superk >>> (2 * (cs.length - 1 - j))) &&& 3 = cs.getD j 0 := by
      intro j hj
      have h := hdig (j + 1) (by simp; omega)
      have h2 : (c :: cs).length - 1 - (j + 1) = cs.length - 1 - j := by
        simp only [List.length_cons]
        omega
      rw [h2] at h
      simpa using h
    rw [ih (canonicalNext K c k true) hcs hinv.1 hinv.2 hdig2]
    rfl

/-- **Claim C2.** For every run of `L` consecutive canonical k-mers of a shared
sequence (seed forward value `f0`, slid by the codes `ns`, `L = ns.length + 1`,
`1 ≤ L ≤ 255`, under the width constraints `2K ≤ B` and `2·ns.length + 8 ≤ B`),
SuperKmer::load applied to the output of SuperKmer::save reproduces the run
element-wise — but each emitted `set` call receives the pair
`(revcomp, forward)`, i.e. the two strands in swapped order relative to the
claimed `(forward, revcomp)`. -/
theorem superKmer_roundtrip_swapped (B K : Nat) (f0 : Nat) (ns : List Nat)
    (hK : 1 ≤ K) (hKB : 2 * K ≤ B) (hf0 : f0 < 4 ^ K) (hns : ∀ c ∈ ns, c < 4)
    (hL : ns.length + 1 ≤ 255) (hW : 2 * ns.length + 8 ≤ B) :
    superKmerLoad B K
        (superKmerSave B (canonicalRun K (canonical2 f0 (revcompNat f0 K)) ns))
      = (canonicalRun K (canonical2 f0 (revcompNat f0 K)) ns).map
          (fun kk => (kk.table1, kk.table0)) := by
  rw [superKmerSave_eq B K f0 ns hK hf0 hns hL hW]
  show superKmerLoadGo B K
      (2 ^ (B - 8) * (ns.length + 1) + ns.foldl (fun x c => x * 4 + c) 0)
      (((2 ^ (B - 8) * (ns.length + 1) + ns.foldl (fun x c => x * 4 + c) 0)
          >>> (B - 8)) &&& 255)
      (((2 ^ (B - 8) * (ns.length + 1) + ns.foldl (fun x c => x * 4 + c) 0)
          >>> (B - 8)) &&& 255)
      f0 (revcompNat f0 K)
    = (canonicalRun K (canonical2 f0 (revcompNat f0 K)) ns).map
        (fun kk => (kk.table1, kk.table0))
  have hP := foldl_poly_lt ns hns
  have hPB : ns.foldl (fun x c => x * 4 + c) 0 < 2 ^ (B - 8) := by
    have h1 : (4 : Nat) ^ ns.length = 2 ^ (2 * ns.length) := (two_pow_two_mul _).symm
    have h2 : (2 : Nat) ^ (2 * ns.length) ≤ 2 ^ (B - 8) :=
      Nat.pow_le_pow_right (by norm_num) (by omega)
    omega
  have hnbK : ((2 ^ (B - 8) * (ns.length + 1) + ns.foldl (fun x c => x * 4 + c) 0)
        >>> (B - 8)) &&& 255 = ns.length + 1 := by
    rw [Nat.shiftRight_eq_div_pow,
      Nat.mul_add_div (Nat.pos_pow_of_pos _ (by norm_num)),
      Nat.div_eq_of_lt hPB, Nat.add_zero,
      show (255 : Nat) = 2 ^ 8 - 1 from by norm_num, Nat.and_pow_two_sub_one_eq_mod]
    exact Nat.mod_eq_of_lt (Nat.lt_of_le_of_lt hL (by norm_num))
  rw [hnbK]
  exact loadGo_run B K hK hKB
    (2 ^ (B - 8) * (ns.length + 1) + ns.foldl (fun x c => x * 4 + c) 0)
    ns (canonical2 f0 (revcompNat f0 K)) hns hf0 rfl
    (fun j hj => superk_digit B (ns.length + 1) ns hns hW j hj)

theorem superKmer_roundtrip_swapped_witness :
    superKmerLoad 64 3
        (superKmerSave 64 (canonicalRun 3 (canonical2 1 (revcompNat 1 3)) [2]))
      = (canonicalRun 3 (canonical2 1 (revcompNat 1 3)) [2]).map
          (fun kk => (kk.table1, kk.table0)) :=
  superKmer_roundtrip_swapped 64 3 1 [2] (by decide) (by decide) (by decide)
    (by decide) (by decide) (by decide)

/-- Counterexample to the claimed `(forward, revcomp)` order: for K = 3 the
single-kmer run with forward value 1 (= CAA) and revcomp 58 round-trips to the
pair (58, 1), not (1, 58): load passes (rev_temp, temp) to set. -/
theorem superKmer_roundtrip_cx :
    superKmerLoad 64 3 (superKmerSave 64 (canonicalRun 3 (canonical2 1 58) []))
        = [(58, 1)]
      ∧ ((58 : Nat), (1 : Nat)) ≠ (1, 58) := by
  constructor
  · rfl
  · decide

end GatbCore
